import Mathlib

set_option maxRecDepth 100000
set_option maxHeartbeats 4000000

/-!
# Verification of the `evilevo` oligonucleotide feature-extraction core

A shallow embedding, over `List Char` sequences and exact rationals `ℚ`
(standing in for Python floats), of the functions in
`libs/viruses_classifier/libs/sequence_processing.py`,
`libs/viruses_classifier/classifier.py` and
`src/layer2/layer2_virus_host.py`.

Python exceptions are made explicit: fallible functions return
`Except PyErr`.  Python dictionaries are embedded as insertion-ordered
association lists (`FreqDict`): setting an existing key updates it in
place, setting a fresh key appends.
-/

namespace EvilEvo

/-- Python exceptions relevant to this code.  `invalidInput` models the
`AssertionError` raised by the length/strand assertions (the spec calls
this category `InvalidInputError`); `zeroDiv` models `ZeroDivisionError`;
`keyError` models `KeyError` from a raising dict lookup. -/
inductive PyErr : Type where
  | invalidInput : PyErr
  | zeroDiv : PyErr
  | keyError : PyErr
deriving DecidableEq

/-- Ordered association-list lookup (first binding wins), the embedding of
`d.get(k)` / `k in d`. -/
def alistGet {α β : Type} [DecidableEq α] : List (α × β) → α → Option β
  | [], _ => none
  | p :: ps, k => if p.1 = k then some p.2 else alistGet ps k

/-- A Python dict from k-mer strings to float values. -/
abbrev FreqDict := List (List Char × ℚ)

/-- `d.get(k)` on a frequency dict. -/
def dget (d : FreqDict) (k : List Char) : Option ℚ := alistGet d k

/-- `d.get(k, q)`. -/
def dgetD (d : FreqDict) (k : List Char) (q : ℚ) : ℚ := (dget d k).getD q

/-- `d[k]`, raising `KeyError` when the key is absent. -/
def dgetE (d : FreqDict) (k : List Char) : Except PyErr ℚ :=
  match dget d k with
  | some v => .ok v
  | none => .error .keyError

/-- `d[k] = v`: update in place when the key exists, append otherwise
(Python dicts preserve insertion order). -/
def dset (d : FreqDict) (k : List Char) (v : ℚ) : FreqDict :=
  if (dget d k).isSome then d.map (fun p => if p.1 = k then (k, v) else p)
  else d ++ [(k, v)]

/-- The keys of a dict, in order (`d.keys()`). -/
def dkeys (d : FreqDict) : List (List Char) := d.map (fun p => p.1)

/-- `NA_IUPAC` from `sequence_processing.py`, in source order. -/
def NA_IUPAC : List (Char × List Char) :=
  [('A', ['A']), ('C', ['C']), ('G', ['G']), ('T', ['T']),
   ('R', ['A', 'G']), ('Y', ['C', 'T']), ('M', ['A', 'C']), ('K', ['G', 'T']),
   ('S', ['C', 'G']), ('W', ['A', 'T']), ('B', ['C', 'G', 'T']),
   ('D', ['A', 'G', 'T']), ('H', ['A', 'C', 'T']), ('V', ['A', 'C', 'G']),
   ('N', ['A', 'C', 'G', 'T'])]

/-- `transcription_dict` from `sequence_processing.py`. -/
def transcriptionDict : List (Char × Char) :=
  [('A', 'T'), ('C', 'G'), ('G', 'C'), ('T', 'A'), ('U', 'A'), ('R', 'Y'),
   ('Y', 'R'), ('N', 'N'), ('M', 'K'), ('K', 'M'), ('S', 'W'), ('W', 'S'),
   ('B', 'V'), ('V', 'B'), ('D', 'H'), ('H', 'D')]

/-- `transcript_dict.get(s, s)`. -/
def pyTranscript (c : Char) : Char := (alistGet transcriptionDict c).getD c

/-- The default `mono` tuple `('A', 'C', 'G', 'T')`. -/
def monoNucs : List Char := ['A', 'C', 'G', 'T']

/-- Python `sequence.find(word, start)`: least index `i ≥ start` (with
`i ≤ len(sequence)`) at which `word` occurs; `none` for Python's `-1`. -/
def pyFind (s w : List Char) (start : Nat) : Option Nat :=
  (List.range' start (s.length + 1 - start)).find?
    (fun i => decide ((s.drop i).take w.length = w))

/-- The `while pos:` loop of `betterCount`, counting one occurrence per
successful `find` and resuming one position later.  (The loop guard
`while pos:` is always true: `pos` is a successful find position plus
one, hence at least 1.) -/
def betterCountLoop (s w : List Char) (pos acc : Nat) : Nat :=
  match h : pyFind s w pos with
  | none => acc
  | some p => betterCountLoop s w (p + 1) (acc + 1)
termination_by s.length + 1 - pos
decreasing_by
  have := List.mem_range'_1.mp (List.mem_of_find?_eq_some h)
  omega

/-- `betterCount` from `sequence_processing.py`: an initial `find`, then
the counting loop restarted one past the first hit. -/
def betterCount (s w : List Char) : Nat :=
  match pyFind s w 0 with
  | none => 0
  | some p => betterCountLoop s w (p + 1) 0

/-- `frequence(sequence, nuc, count)`.  The `k = 1` branch divides by
`len(sequence)`; the `k > 1` branch divides by
`len(sequence) - len(nuc) + 1` (a Python `int`, possibly `≤ 0`), raising
`ZeroDivisionError` when that divisor is zero. -/
def frequence (s nuc : List Char) (count : Option Nat) : Except PyErr ℚ :=
  if s.length = 0 then .ok 0
  else if nuc.length = 1 then
    .ok ((count.getD (s.count (nuc.headD 'A')) : ℚ) / (s.length : ℚ))
  else if ((s.length : Int) - (nuc.length : Int) + 1) = 0 then .error .zeroDiv
  else .ok ((count.getD (betterCount s nuc) : ℚ) /
    (((s.length : Int) - (nuc.length : Int) + 1 : Int) : ℚ))

/-- `nucList(sequence, length)`: all windows of the given length
(`range(len(sequence) - length + 1)`, empty when negative). -/
def nucList (s : List Char) (len : Nat) : List (List Char) :=
  (List.range (s.length + 1 - len)).map (fun x => (s.drop x).take len)

/-- `combinations(n, inlist, outlist)` from `sequence_processing.py`. -/
def combinations (n : Nat) (inlist : List Char) (outlist : List (List Char)) :
    List (List Char) :=
  match n with
  | 0 => outlist
  | Nat.succ m =>
    if outlist.isEmpty then combinations m inlist (inlist.map (fun c => [c]))
    else combinations m inlist (outlist.flatMap (fun e => inlist.map (fun c => e ++ [c])))

/-- One character step of `makeCombinations`: look the character up in
the IUPAC table (falling back to the character itself), then extend every
string accumulated so far (or seed with the single characters). -/
def makeCombStep (acc : List (List Char)) (c : Char) : List (List Char) :=
  let nucs := (alistGet NA_IUPAC c).getD [c]
  if acc.isEmpty then nucs.map (fun n => [n])
  else acc.flatMap (fun e => nucs.map (fun n => e ++ [n]))

/-- `makeCombinations(oligo_nuc)`: per-character IUPAC expansion (with the
unknown-character fallback `(nuc,)`), collected into a `set`
(deduplicated). -/
def makeCombinations (oligo : List Char) : List (List Char) :=
  (oligo.foldl makeCombStep []).dedup

/-- `reverseComplement(a_string)`: per-character transcription with
identity fallback, then reversal. -/
def reverseComplement (s : List Char) : List Char :=
  (s.map pyTranscript).reverse

/-- `product(a_list)` from `sequence_processing.py` (`reduce` of
multiplication, 1 on the empty list). -/
def product (l : List ℚ) : ℚ := l.foldl (fun x y => x * y) 1

/-- `zeroDivision(a, b)`: `a / b`, masking `ZeroDivisionError` as 0. -/
def zeroDivision (a b : ℚ) : ℚ := if b = 0 then 0 else a / b

/-- The first dict-building pass of `nucFrequencies`: mononucleotide
entries, then the canonical oligos of the requested length. -/
def nucFreqBase (monoData : List (Char × Nat × ℚ)) (desiredData : FreqDict) :
    FreqDict :=
  desiredData.foldl (fun d p => dset d p.1 p.2)
    (monoData.foldl (fun d p => dset d [p.1] p.2.2) [])

/-- The mononucleotide redistribution loop of `nucFrequencies` (`for nuc
in sequence: ...`). -/
def nucFreqMonoDegen (s : List Char) (d2 : FreqDict) : FreqDict :=
  s.foldl (fun d c =>
    if c ∉ monoNucs then
      match alistGet NA_IUPAC c with
      | some subs => subs.foldl (fun d sub =>
          dset d [sub]
            (dgetD d [sub] 0 + 1 / (s.length : ℚ) / (subs.length : ℚ))) d
      | none => d
    else d) d2

/-- The oligonucleotide redistribution loop of `nucFrequencies` (`for nuc
in nucList(sequence, length): ...`). -/
def nucFreqOligoDegen (s : List Char) (len : Nat) (d3 : FreqDict) : FreqDict :=
  (nucList s len).foldl (fun d nuc =>
    if nuc ∈ combinations len monoNucs [] then d
    else
      (makeCombinations nuc).foldl (fun d rn =>
        dset d rn (dgetD d rn 0 +
          1 / ((s.length : ℚ) - (len : ℚ) + 1) /
            ((makeCombinations nuc).length : ℚ))) d) d3

/-- The degenerate-base redistribution of `nucFrequencies`: the
mononucleotide loop always runs; the oligo loop is skipped when
`length - 1` is zero. -/
def nucFreqDegenerate (s : List Char) (len : Nat) (d2 : FreqDict) : FreqDict :=
  if len = 1 then nucFreqMonoDegen s d2
  else nucFreqOligoDegen s len (nucFreqMonoDegen s d2)

/-- `nucFrequencies(sequence, length)`: mononucleotide frequencies and
counts, frequencies of all canonical oligos of the requested length, and
the degenerate-base fractional redistribution when the canonical
mononucleotide counts do not add up to the sequence length. -/
def nucFrequencies (s : List Char) (len : Nat) : Except PyErr FreqDict :=
  (monoNucs.mapM (fun c =>
      (frequence s [c] (some (betterCount s [c]))).map
        (fun f => (c, betterCount s [c], f)))) >>= fun monoData =>
  ((combinations len monoNucs []).mapM
      (fun nuc => (frequence s nuc none).map (fun f => (nuc, f)))) >>= fun desiredData =>
  if s.length = (monoData.map (fun p => p.2.1)).sum then
    .ok (nucFreqBase monoData desiredData)
  else
    -- degenerate nucleotides present: fractional redistribution
    .ok (nucFreqDegenerate s len (nucFreqBase monoData desiredData))

/-- The per-key value assigned inside the `for key in tri_freqs` loop of
`thirdOrderBias`. -/
def triBiasValue (monoF diF triF : FreqDict) (strand : Nat) (key : List Char)
    (fxyz : ℚ) : ℚ :=
  let revKey := reverseComplement key
  let fixyz := dgetD triF revKey 0
  if fxyz = 0 ∧ (strand = 1 ∨ (strand = 2 ∧ fixyz = 0)) then 0
  else
    let x := key.getD 0 'A'
    let y := key.getD 1 'A'
    let z := key.getD 2 'A'
    let fxy := dgetD diF (key.take 2) 0
    let fyz := dgetD diF (key.drop 1) 0
    let fxnz := (monoNucs.map (fun n => dgetD triF [x, n, z] 0)).sum
    if strand = 1 then
      fxyz * dgetD monoF [x] 0 * dgetD monoF [y] 0 * dgetD monoF [z] 0 /
        max (fxy * fyz * fxnz) (1 / 10 ^ 10)
    else
      let fix := dgetD monoF [pyTranscript x] 0
      let fiy := dgetD monoF [pyTranscript y] 0
      let fiz := dgetD monoF [pyTranscript z] 0
      let fixy := dgetD diF (reverseComplement (key.take 2)) 0
      let fiyz := dgetD diF (reverseComplement (key.drop 1)) 0
      let fixnz := (monoNucs.map
        (fun n => dgetD triF [pyTranscript z, n, pyTranscript x] 0)).sum
      (fxyz + fixyz) * (dgetD monoF [x] 0 + fix) * (dgetD monoF [y] 0 + fiy) *
          (dgetD monoF [z] 0 + fiz) /
        max (2 * (fxy + fixy) * (fyz + fiyz) * (fxnz + fixnz)) (1 / 10 ^ 10)

/-- `thirdOrderBias(seq, strand)`: asserts `len(seq) > 2` and
`strand in (1, 2)` (modelled as `invalidInput`), computes mono/di/tri
frequency tables via `nucFrequencies`, then fills the result dict with
`triBiasValue` for every trinucleotide key. -/
def thirdOrderBias (seq : List Char) (strand : Nat) : Except PyErr FreqDict :=
  if ¬ seq.length > 2 then .error .invalidInput
  else if ¬ (strand = 1 ∨ strand = 2) then .error .invalidInput
  else
    nucFrequencies seq 2 >>= fun nf2 =>
    nucFrequencies seq 3 >>= fun nf3 =>
    .ok ((nf3.filter (fun p => p.1.length = 3)).foldl
      (fun ret p => dset ret p.1
        (triBiasValue (nf2.filter (fun p => p.1.length = 1))
          (nf2.filter (fun p => p.1.length = 2))
          (nf3.filter (fun p => p.1.length = 3)) strand p.1 p.2)) [])

/-- The term `mono_dict[y] + mono_dict[transcript_dict[y]]` of the strand-2
denominator of `relativeNucFrequencies`; the dict indexings raise. -/
def monoDual (monoD : FreqDict) (y : Char) : Except PyErr ℚ := do
  let my ← dgetE monoD [y]
  let ty ← match alistGet transcriptionDict y with
           | some t => Except.ok t
           | none => Except.error PyErr.keyError
  let mty ← dgetE monoD [ty]
  pure (my + mty)

/-- One entry of the first (plain-division) strand-2 dict comprehension of
`relativeNucFrequencies`. -/
def strand2Try (oligoD monoD : FreqDict) (nucLen : Nat) (x : List Char) :
    Except PyErr ℚ := do
  let ox ← dgetE oligoD x
  let orc ← dgetE oligoD (reverseComplement x)
  let terms ← x.mapM (monoDual monoD)
  let den := product terms
  if den = 0 then Except.error PyErr.zeroDiv
  else pure (2 ^ (nucLen - 1) * (ox + orc) / den)

/-- One entry of the strand-2 fallback comprehension (`zeroDivision`). -/
def strand2Safe (oligoD monoD : FreqDict) (nucLen : Nat) (x : List Char) :
    Except PyErr ℚ := do
  let ox ← dgetE oligoD x
  let orc ← dgetE oligoD (reverseComplement x)
  let terms ← x.mapM (monoDual monoD)
  pure (2 ^ (nucLen - 1) * zeroDivision (ox + orc) (product terms))

/-- One entry of the first strand-1 dict comprehension. -/
def strand1Try (oligoD monoD : FreqDict) (x : List Char) : Except PyErr ℚ := do
  let ox ← dgetE oligoD x
  let terms ← x.mapM (fun y => dgetE monoD [y])
  let den := product terms
  if den = 0 then Except.error PyErr.zeroDiv else pure (ox / den)

/-- One entry of the strand-1 fallback comprehension (`zeroDivision`). -/
def strand1Safe (oligoD monoD : FreqDict) (x : List Char) : Except PyErr ℚ := do
  let ox ← dgetE oligoD x
  let terms ← x.mapM (fun y => dgetE monoD [y])
  pure (zeroDivision ox (product terms))

/-- A dict comprehension `{x: f(x) for x in keys}` with a retry: if the
first pass raises `ZeroDivisionError`, the whole comprehension is redone
with the fallback entry function (Python `try/except ZeroDivisionError`);
any other exception propagates. -/
def comprehendRetry (keys : List (List Char)) (f g : List Char → Except PyErr ℚ) :
    Except PyErr FreqDict :=
  match keys.mapM f with
  | .ok vs => .ok (keys.zip vs)
  | .error .zeroDiv =>
    match keys.mapM g with
    | .ok vs => .ok (keys.zip vs)
    | .error e => .error e
  | .error e => .error e

/-- The canonical bases inserted for missing mononucleotide entries,
`set(['A', 'C', 'G', 'T'])` in source order. -/
def canonicalSet : List Char := ['A', 'C', 'G', 'T']

/-- `itertools.product(keys, repeat=n)`, joined to strings: rightmost
position varies fastest. -/
def pyProduct (ks : List Char) : Nat → List (List Char)
  | 0 => [[]]
  | Nat.succ n => ks.flatMap (fun c => (pyProduct ks n).map (fun t => c :: t))

/-- The `mono_dict` of `relativeNucFrequencies`: the length-1 entries of
the input. -/
def relMonoD0 (inDict : FreqDict) : FreqDict :=
  inDict.filter (fun p => p.1.length = 1)

/-- The `oligo_dict` of `relativeNucFrequencies`: the longer entries of
the input. -/
def relOligoD0 (inDict : FreqDict) : FreqDict :=
  inDict.filter (fun p => p.1.length > 1)

/-- `nuc_len = len(list(oligo_dict.keys())[0])`. -/
def relNucLen (inDict : FreqDict) : Nat :=
  (((relOligoD0 inDict).head?).map (fun p => p.1.length)).getD 0

/-- `mono_dict` after filling missing canonical bases with 0 (only when
fewer than four mono entries exist). -/
def relMonoD (inDict : FreqDict) : FreqDict :=
  if (relMonoD0 inDict).length ≠ 4 then
    (canonicalSet.filter
        (fun c => ¬ ((relMonoD0 inDict).any (fun p => p.1 = [c])))).foldl
      (fun d c => dset d [c] 0) (relMonoD0 inDict)
  else relMonoD0 inDict

/-- `oligo_dict` after the completeness fill, which the code only runs
when the entry count differs from `nuc_len ** 2`. -/
def relOligoD (inDict : FreqDict) : FreqDict :=
  if (relOligoD0 inDict).length ≠ relNucLen inDict ^ 2 then
    (pyProduct ((relMonoD inDict).map (fun p => p.1.headD 'A'))
        (relNucLen inDict)).foldl
      (fun d k => if (dget d k).isSome then d else dset d k 0) (relOligoD0 inDict)
  else relOligoD0 inDict

/-- `relativeNucFrequencies(in_dict, strands)`: split into mono and oligo
entries, early-return when no oligo entry exists, assert a single oligo
length, complete the mono dict to the four canonical bases, complete the
oligo dict when its size differs from `nuc_len ** 2`, then build the
relative-frequency dict for the requested strand mode with a
`ZeroDivisionError`-triggered fallback pass. -/
def relativeNucFrequencies (inDict : FreqDict) (strands : Nat) :
    Except PyErr FreqDict :=
  if (relOligoD0 inDict).isEmpty then .ok inDict
  else if ¬ (relOligoD0 inDict).all (fun p => p.1.length = relNucLen inDict) then
    .error .invalidInput
  else if strands ≠ 1 then
    comprehendRetry (dkeys (relOligoD inDict))
      (strand2Try (relOligoD inDict) (relMonoD inDict) (relNucLen inDict))
      (strand2Safe (relOligoD inDict) (relMonoD inDict) (relNucLen inDict))
  else
    comprehendRetry (dkeys (relOligoD inDict))
      (strand1Try (relOligoD inDict) (relMonoD inDict))
      (strand1Safe (relOligoD inDict) (relMonoD inDict))

/-- `ACID_TO_NUMBER` from `constants.py`. -/
def ACID_TO_NUMBER : List (String × ℚ) := [("dna", 1), ("rna", 0)]

/-- Strict less-than on strings of characters, as Python compares `str`
keys: lexicographic by code point, a proper prefix preceding its
extensions. -/
def keyLt : List Char → List Char → Bool
  | [], [] => false
  | [], _ :: _ => true
  | _ :: _, [] => false
  | a :: as, b :: bs => if a < b then true else if b < a then false else keyLt as bs

/-- Insertion step of `sorted` on dict keys. -/
def insertKey (x : List Char) : List (List Char) → List (List Char)
  | [] => [x]
  | y :: ys => if keyLt x y then x :: y :: ys else y :: insertKey x ys

/-- `sorted(freqs)`: the keys in ascending lexicographic order. -/
def sortKeys (l : List (List Char)) : List (List Char) := l.foldr insertKey []

/-- `.update(other)`: insert every binding of `other`, in order. -/
def dictUpdate (d other : FreqDict) : FreqDict :=
  other.foldl (fun d p => dset d p.1 p.2) d

/-- `seq_to_features(seq, nuc_acid)` from `classifier.py`: the acid code,
then the merged prefixed frequency dictionaries in sorted key order. -/
def seq_to_features (seq : List Char) (nucAcid : String) : Except PyErr (List ℚ) := do
  let acidCode ← match alistGet ACID_TO_NUMBER nucAcid with
                 | some q => Except.ok q
                 | none => Except.error PyErr.keyError
  let nucFreq ← nucFrequencies seq 2
  let nf := nucFreq.map (fun p => ("nuc_frequencies__".toList ++ p.1, p.2))
  let rel ← relativeNucFrequencies nucFreq 1
  let rel' := rel.map
    (fun p => ("relative_nuc_frequencies_one_strand__".toList ++ p.1, p.2))
  let tri ← thirdOrderBias seq 1
  let tri' := tri.map
    (fun p => ("relative_trinuc_freqs_one_strand__".toList ++ p.1, p.2))
  let freqs := dictUpdate (dictUpdate nf rel') tri'
  pure (acidCode :: (sortKeys (freqs.map (fun p => p.1))).map (fun k => dgetD freqs k 0))

/-- The `VirusHostResult` dataclass of `src/layer2/layer2_virus_host.py`. -/
structure VirusHostResult : Type where
  host_type : Option String
  probabilities : Option (List (String × ℚ))
  features_extracted : Bool
  feature_count : Nat
  classifier_used : Option String
  warnings : List String
  error : Option String
deriving DecidableEq

/-- Printable message for an exception, standing in for Python `str(e)`. -/
def PyErr.msg : PyErr → String
  | .invalidInput => "AssertionError"
  | .zeroDiv => "float division by zero"
  | .keyError => "KeyError"

/-- `detect_virus_host_type(sequence, nucleic_acid, classifier_type,
use_models)`.  The artifact step (loading the scaler and classifier with
`load_joblib_safe` and running `classify` twice) operates on opaque
external model files, so it is abstracted as the `loadAndClassify`
parameter: its `Except` outcome is the outcome of that `try` block,
yielding the host type and the probability mapping on success. -/
def detect_virus_host_type (sequence : List Char) (nucleic_acid : String)
    (classifier_type : String) (use_models : Bool)
    (loadAndClassify : List ℚ → Except String (String × List (String × ℚ))) :
    VirusHostResult :=
  let na := nucleic_acid.toLower
  let ct := classifier_type.toLower
  if na ∉ ["dna", "rna"] then
    ⟨none, none, false, 0, none, [],
      some ("Invalid nucleic_acid: " ++ na ++ ". Must be DNA or RNA")⟩
  else if ct ∉ ["svc", "knn", "qda", "lr"] then
    ⟨none, none, false, 0, none, [], some ("Invalid classifier_type: " ++ ct)⟩
  else
    match seq_to_features sequence na with
    | .error e =>
      ⟨none, none, false, 0, none, [],
        some ("Feature extraction failed: " ++ e.msg)⟩
    | .ok feats =>
      if use_models then
        match loadAndClassify feats with
        | .error e =>
          ⟨none, none, true, feats.length, none,
            ["Model loading failed (Python 2 pickle format): " ++ e ++
              ". Feature extraction succeeded (" ++ toString feats.length ++
              " features)."], none⟩
        | .ok (host, probs) =>
          ⟨some host, some probs, true, feats.length, some ct.toUpper, [], none⟩
      else
        ⟨none, none, true, feats.length, none,
          ["Models not used - only features extracted"], none⟩

instance instDecEqExcept {ε α : Type} [DecidableEq ε] [DecidableEq α] :
    DecidableEq (Except ε α)
  | .ok a, .ok b =>
    if h : a = b then .isTrue (by rw [h]) else
      .isFalse (by intro hh; injection hh; contradiction)
  | .ok _, .error _ => .isFalse (by intro hh; injection hh)
  | .error _, .ok _ => .isFalse (by intro hh; injection hh)
  | .error e, .error f =>
    if h : e = f then .isTrue (by rw [h]) else
      .isFalse (by intro hh; injection hh; contradiction)

/-- Stated from the spec's words, for comparison with `betterCount`: the
number of starting positions at which the word `w` occurs in `s`,
counting overlapping occurrences. -/
def specOverlapCount (s w : List Char) : Nat :=
  ((List.range (s.length + 1)).filter
    (fun i => decide ((s.drop i).take w.length = w))).length

/-- The sequence `"AAA"`. -/
def segAAA : List Char := ['A', 'A', 'A']

/-- The word `"AA"`. -/
def wordAA : List Char := ['A', 'A']

/-- The sequence `"ACGT"`. -/
def segACGT : List Char := ['A', 'C', 'G', 'T']

/-- The frequency dict computed by the code on `"ACGT"` at oligo
length 2. -/
def nfACGT : FreqDict := (nucFrequencies segACGT 2).toOption.getD []

/-- The sequence of twelve `N` characters. -/
def segN12 : List Char := List.replicate 12 'N'

/-- The frequency dict computed by the code on twelve `N`s at oligo
length 2. -/
def nfN12 : FreqDict := (nucFrequencies segN12 2).toOption.getD []

/-- A frequency table with the four canonical mononucleotide entries and
exactly `4 = nuc_len ** 2` dinucleotide entries — an incomplete oligo
grid (16 combinations exist). -/
def inDictFour : FreqDict :=
  [(['A'], 1/4), (['C'], 1/4), (['G'], 1/4), (['T'], 1/4),
   (['A', 'A'], 1/4), (['A', 'C'], 1/4), (['C', 'A'], 1/4), (['C', 'C'], 1/4)]

/-- What `relativeNucFrequencies` returns on `inDictFour` in strand
mode 1. -/
def outDictFour : FreqDict :=
  (relativeNucFrequencies inDictFour 1).toOption.getD []

/-- Stated from the spec's words (§4.4, strand 1), for comparison with
`thirdOrderBias`: the ε-guarded divisor `fxy × fyz × Σ_n f(x,n,z)`,
guarded below by `1e-10`, where the sum ranges over the four
mononucleotides. -/
def specBias1Divisor (diF triF : FreqDict) (x y z : Char) : ℚ :=
  max (dgetD diF [x, y] 0 * dgetD diF [y, z] 0 *
    (monoNucs.map (fun n => dgetD triF [x, n, z] 0)).sum) (1 / 10 ^ 10)

/-- Stated from the spec's words (§4.4, strand 1): `fxyz × mono(x) ×
mono(y) × mono(z)` divided by the ε-guarded divisor. -/
def specBias1 (monoF diF triF : FreqDict) (x y z : Char) : ℚ :=
  dgetD triF [x, y, z] 0 * dgetD monoF [x] 0 * dgetD monoF [y] 0 *
    dgetD monoF [z] 0 / specBias1Divisor diF triF x y z

/-- A complete frequency table: four mononucleotide entries of 1/4 and
all sixteen dinucleotide entries of 1/16. -/
def inDictC7 : FreqDict :=
  [(['A'], 1 / 4), (['C'], 1 / 4), (['G'], 1 / 4), (['T'], 1 / 4)] ++
  ((pyProduct ['A', 'C', 'G', 'T'] 2).map (fun k => (k, (1 : ℚ) / 16)))

/-- What `relativeNucFrequencies` returns on `inDictC7` in strand
mode 2. -/
def outDictC7 : FreqDict := (relativeNucFrequencies inDictC7 2).toOption.getD []

/-- The frequency dicts computed by the code on `"AAA"`. -/
def nf2AAA : FreqDict := (nucFrequencies segAAA 2).toOption.getD []

/-- The length-3 frequency dict computed by the code on `"AAA"`. -/
def nf3AAA : FreqDict := (nucFrequencies segAAA 3).toOption.getD []

/-- The strand-1 trinucleotide bias dict computed by the code on
`"AAA"`. -/
def triAAA : FreqDict := (thirdOrderBias segAAA 1).toOption.getD []

/-- The feature vector computed by the code on `"AAA"` as DNA. -/
def featsAAA : List ℚ := (seq_to_features segAAA "dna").toOption.getD []

/-- The feature-list assembly tail of `seq_to_features`: the three
prefixed dictionaries merged with `.update`, then the acid code followed
by the values in sorted key order. -/
def featsAssemble (acidCode : ℚ) (nucFreq rel tri : FreqDict) : List ℚ :=
  let nf := nucFreq.map (fun p => ("nuc_frequencies__".toList ++ p.1, p.2))
  let rel' := rel.map
    (fun p => ("relative_nuc_frequencies_one_strand__".toList ++ p.1, p.2))
  let tri' := tri.map
    (fun p => ("relative_trinuc_freqs_one_strand__".toList ++ p.1, p.2))
  let freqs := dictUpdate (dictUpdate nf rel') tri'
  acidCode :: (sortKeys (freqs.map (fun p => p.1))).map (fun k => dgetD freqs k 0)

/-- An artifact step that always fails, standing in for a scaler or
classifier pickle that cannot be loaded. -/
def lcFail : List ℚ → Except String (String × List (String × ℚ)) :=
  fun _ => .error "incompatible pickle"

end EvilEvo

namespace EvilEvo

/-! ## Claim theorems and their support lemmas -/

theorem dget_nil (k : List Char) : dget [] k = none := rfl

theorem dget_cons (p : List Char × ℚ) (ps : FreqDict) (k : List Char) :
    dget (p :: ps) k = if p.1 = k then some p.2 else dget ps k := rfl

theorem dget_append (d e : FreqDict) (k : List Char) :
    dget (d ++ e) k = if (dget d k).isSome then dget d k else dget e k := by
  induction d with
  | nil => simp [dget_nil]
  | cons p ps ih =>
    by_cases h : p.1 = k
    · simp [dget_cons, h]
    · simpa [dget_cons, h] using ih

theorem dget_map_update (d : FreqDict) (k k' : List Char) (v : ℚ) :
    dget (d.map (fun p => if p.1 = k then (k, v) else p)) k' =
      if k' = k then (if (dget d k).isSome then some v else none)
      else dget d k' := by
  induction d with
  | nil => simp [dget_nil]
  | cons p ps ih =>
    simp only [List.map_cons, dget_cons]
    by_cases hp : p.1 = k
    · by_cases hk : k' = k
      · subst hk
        simp [hp, ih]
      · have hk' : ¬ k = k' := fun hh => hk hh.symm
        simp [hp, hk, hk', ih]
    · by_cases hk : k' = k
      · subst hk
        simp [hp, ih]
      · by_cases hp' : p.1 = k'
        · simp [hp, hk, hp', ih]
        · simp [hp, hk, hp', ih]

theorem dget_dset (d : FreqDict) (k k' : List Char) (v : ℚ) :
    dget (dset d k v) k' = if k' = k then some v else dget d k' := by
  unfold dset
  by_cases h : (dget d k).isSome
  · rw [if_pos h, dget_map_update, if_pos h]
  · rw [if_neg h, dget_append]
    by_cases hk : k' = k
    · subst hk
      have : dget d k' = none := by
        cases hh : dget d k' with
        | none => rfl
        | some _ => exact absurd (by simp [hh]) h
      simp [this, dget_cons]
    · by_cases hs : (dget d k').isSome
      · simp [hs, hk]
      · have : dget d k' = none := by
          cases hh : dget d k' with
          | none => rfl
          | some _ => exact absurd (by simp [hh]) hs
        simp [this, dget_cons, dget_nil, hk, Ne.symm hk]

theorem dget_isSome_of_mem_dkeys {d : FreqDict} {k : List Char}
    (h : k ∈ dkeys d) : (dget d k).isSome := by
  induction d with
  | nil => simp [dkeys] at h
  | cons p ps ih =>
    rw [dkeys, List.map_cons, List.mem_cons] at h
    rcases h with h1 | h1
    · simp [dget_cons, h1.symm]
    · by_cases hp : p.1 = k
      · simp [dget_cons, hp]
      · simp only [dget_cons, if_neg hp]
        exact ih h1

theorem dget_none_of_not_mem_dkeys {d : FreqDict} {k : List Char}
    (h : k ∉ dkeys d) : dget d k = none := by
  induction d with
  | nil => rfl
  | cons p ps ih =>
    rw [dkeys, List.map_cons, List.mem_cons] at h
    push_neg at h
    simp only [dget_cons, if_neg (fun hh : p.1 = k => h.1 hh.symm)]
    exact ih h.2

theorem dkeys_dset_of_isSome {d : FreqDict} {k : List Char} (v : ℚ)
    (h : (dget d k).isSome) : dkeys (dset d k v) = dkeys d := by
  unfold dset
  rw [if_pos h]
  unfold dkeys
  rw [List.map_map]
  apply List.map_congr_left
  intro p _
  by_cases hp : p.1 = k
  · simp [hp]
  · simp [hp]

theorem dkeys_dset_of_none {d : FreqDict} {k : List Char} (v : ℚ)
    (h : ¬ (dget d k).isSome) : dkeys (dset d k v) = dkeys d ++ [k] := by
  unfold dset
  rw [if_neg h]
  simp [dkeys]

theorem dkeys_nodup_dset {d : FreqDict} {k : List Char} {v : ℚ}
    (h : (dkeys d).Nodup) : (dkeys (dset d k v)).Nodup := by
  by_cases hs : (dget d k).isSome
  · rw [dkeys_dset_of_isSome v hs]
    exact h
  · rw [dkeys_dset_of_none v hs]
    have hk : k ∉ dkeys d := fun hm => hs (dget_isSome_of_mem_dkeys hm)
    simp [List.nodup_append, h, hk]

theorem dset_keys_subset (d : FreqDict) (k k' : List Char) (v : ℚ)
    (h : k' ∈ dkeys (dset d k v)) : k' ∈ dkeys d ∨ k' = k := by
  by_cases hk : k' = k
  · exact Or.inr hk
  · left
    have := dget_dset d k k' v
    rw [if_neg hk] at this
    have hs := dget_isSome_of_mem_dkeys h
    rw [this] at hs
    by_contra hmem
    rw [dget_none_of_not_mem_dkeys hmem] at hs
    simp at hs

/-! ## Support lemmas on `Except`, folds and `mapM` -/

theorem except_bind_ok {α β : Type} (a : α) (f : α → Except PyErr β) :
    (Except.ok a >>= f) = f a := rfl

theorem except_bind_error {α β : Type} (e : PyErr) (f : α → Except PyErr β) :
    ((Except.error e : Except PyErr α) >>= f) = .error e := rfl

theorem except_map_ok {α β : Type} (a : α) (f : α → β) :
    (Except.ok a : Except PyErr α).map f = .ok (f a) := rfl

theorem except_map_error {α β : Type} (e : PyErr) (f : α → β) :
    (Except.error e : Except PyErr α).map f = .error e := rfl

theorem foldl_preserve_mem {α β : Type} (P : β → Prop) {step : β → α → β} :
    ∀ (l : List α), (∀ d a, a ∈ l → P d → P (step d a)) →
    ∀ (init : β), P init → P (l.foldl step init) := by
  intro l
  induction l with
  | nil => intro _ init h; exact h
  | cons a l ih =>
    intro hstep init h
    exact ih (fun d a' ha' => hstep d a' (List.mem_cons_of_mem a ha')) _
      (hstep init a (List.mem_cons_self a l) h)

theorem foldl_preserve {α β : Type} (P : β → Prop) {step : β → α → β}
    (hstep : ∀ d a, P d → P (step d a)) :
    ∀ (l : List α) (init : β), P init → P (l.foldl step init) :=
  fun l init h => foldl_preserve_mem P l (fun d a _ hd => hstep d a hd) init h

theorem mapM_ok_forall2 {α β : Type} (f : α → Except PyErr β) :
    ∀ (l : List α) (bs : List β), l.mapM f = .ok bs →
      List.Forall₂ (fun a b => f a = .ok b) l bs := by
  intro l
  induction l with
  | nil =>
    intro bs h
    simp only [List.mapM_nil] at h
    cases h
    exact List.Forall₂.nil
  | cons a l ih =>
    intro bs h
    rw [List.mapM_cons] at h
    cases hfa : f a with
    | error e => rw [hfa] at h; simp only [except_bind_error] at h; cases h
    | ok b =>
      rw [hfa] at h
      simp only [except_bind_ok] at h
      cases hl : l.mapM f with
      | error e => rw [hl] at h; simp only [except_bind_error] at h; cases h
      | ok bs' =>
        rw [hl] at h
        simp only [except_bind_ok] at h
        cases h
        exact List.Forall₂.cons hfa (ih bs' hl)

theorem mapM_ok_of_forall_ok {α β : Type} (f : α → Except PyErr β) :
    ∀ l : List α, (∀ a ∈ l, ∃ b, f a = .ok b) → ∃ bs, l.mapM f = .ok bs := by
  intro l
  induction l with
  | nil => intro _; exact ⟨[], rfl⟩
  | cons a l ih =>
    intro h
    obtain ⟨b, hb⟩ := h a (List.mem_cons_self a l)
    obtain ⟨bs, hbs⟩ := ih (fun x hx => h x (List.mem_cons_of_mem a hx))
    refine ⟨b :: bs, ?_⟩
    rw [List.mapM_cons, hb, except_bind_ok, hbs, except_bind_ok]
    rfl

theorem mapM_error_mem {α β : Type} (f : α → Except PyErr β) :
    ∀ (l : List α) (e : PyErr), l.mapM f = .error e → ∃ a ∈ l, f a = .error e := by
  intro l
  induction l with
  | nil => intro e h; simp only [List.mapM_nil] at h; cases h
  | cons a l ih =>
    intro e h
    rw [List.mapM_cons] at h
    cases hfa : f a with
    | error e' =>
      rw [hfa] at h
      simp only [except_bind_error] at h
      cases h
      exact ⟨a, List.mem_cons_self a l, hfa⟩
    | ok b =>
      rw [hfa] at h
      simp only [except_bind_ok] at h
      cases hl : l.mapM f with
      | error e' =>
        rw [hl] at h
        simp only [except_bind_error] at h
        cases h
        obtain ⟨x, hx, hfx⟩ := ih e hl
        exact ⟨x, List.mem_cons_of_mem a hx, hfx⟩
      | ok bs =>
        rw [hl] at h
        simp only [except_bind_ok] at h
        cases h

theorem mapM_error_of_head {α β : Type} (f : α → Except PyErr β) (a : α)
    (l : List α) (e : PyErr) (h : f a = .error e) :
    (a :: l).mapM f = .error e := by
  rw [List.mapM_cons, h, except_bind_error]

/-- Looking a key up in the dict built by a comprehension `{x: f(x) for x
in keys}` recovers the value of `f` at that key. -/
theorem dget_zip_mapM (f : List Char → Except PyErr ℚ) :
    ∀ (keys : List (List Char)) (vs : List ℚ), keys.mapM f = .ok vs →
      ∀ k v, dget (keys.zip vs) k = some v → f k = .ok v := by
  intro keys
  induction keys with
  | nil =>
    intro vs _ k v hget
    simp only [List.zip_nil_left, dget_nil] at hget
    cases hget
  | cons a keys ih =>
    intro vs hvs k v hget
    have h2 := mapM_ok_forall2 f _ _ hvs
    cases h2 with
    | cons hfa htail =>
      rename_i b bs
      rw [List.zip_cons_cons, dget_cons] at hget
      by_cases hak : a = k
      · rw [if_pos hak] at hget
        cases hget
        exact hak ▸ hfa
      · rw [if_neg hak] at hget
        have hbs : keys.mapM f = .ok bs := by
          rw [List.mapM_cons, hfa, except_bind_ok] at hvs
          cases hmm : keys.mapM f with
          | error e => rw [hmm] at hvs; simp only [except_bind_error] at hvs; cases hvs
          | ok bs' =>
            rw [hmm] at hvs
            simp only [except_bind_ok] at hvs
            cases hvs
            rfl
        exact ih bs hbs k v hget

/-- Building a dict by `dset`-ing a value computed from each entry of a
duplicate-free dict: lookups recover the per-entry value. -/
theorem dget_foldl_dset (f : List Char × ℚ → ℚ) :
    ∀ (l : FreqDict) (init : FreqDict), (dkeys l).Nodup →
      ∀ k, dget (l.foldl (fun ret p => dset ret p.1 (f p)) init) k =
        match dget l k with
        | some v => some (f (k, v))
        | none => dget init k := by
  intro l
  induction l with
  | nil => intro init _ k; rfl
  | cons p ps ih =>
    intro init hnd k
    rw [List.foldl_cons]
    have hnd' : (dkeys ps).Nodup := by
      rw [dkeys, List.map_cons] at hnd
      exact hnd.of_cons
    rw [ih (dset init p.1 (f p)) hnd' k]
    by_cases hpk : p.1 = k
    · have hknotin : k ∉ dkeys ps := by
        rw [dkeys, List.map_cons] at hnd
        exact hpk ▸ (List.nodup_cons.mp hnd).1
      rw [dget_none_of_not_mem_dkeys hknotin, dget_cons, if_pos hpk]
      show dget (dset init p.1 (f p)) k = some (f (k, p.2))
      rw [dget_dset, if_pos hpk.symm]
      have hp : p = (k, p.2) := by
        cases p
        simpa using hpk
      rw [hp]
    · rw [dget_cons, if_neg hpk]
      cases hps : dget ps k with
      | some v => rfl
      | none => rw [dget_dset, if_neg (fun hh => hpk hh.symm)]

/-! ## Support lemmas on `frequence` and `combinations` -/

theorem frequence_error_cases (s nuc : List Char) (count : Option Nat) (e : PyErr)
    (h : frequence s nuc count = .error e) :
    e = .zeroDiv ∧ 0 < s.length ∧ nuc.length = s.length + 1 := by
  unfold frequence at h
  by_cases h0 : s.length = 0
  · rw [if_pos h0] at h
    cases h
  · rw [if_neg h0] at h
    by_cases h1 : nuc.length = 1
    · rw [if_pos h1] at h
      cases h
    · rw [if_neg h1] at h
      by_cases hd : ((s.length : Int) - (nuc.length : Int) + 1) = 0
      · rw [if_pos hd] at h
        cases h
        refine ⟨rfl, by omega, by omega⟩
      · rw [if_neg hd] at h
        cases h

theorem frequence_ok_of (s nuc : List Char) (count : Option Nat)
    (h : ¬ (0 < s.length ∧ nuc.length = s.length + 1)) :
    ∃ q, frequence s nuc count = .ok q := by
  cases hx : frequence s nuc count with
  | ok q => exact ⟨q, rfl⟩
  | error e =>
    obtain ⟨-, h2, h3⟩ := frequence_error_cases s nuc count e hx
    exact absurd ⟨h2, h3⟩ h

theorem frequence_zeroDiv_of (s nuc : List Char) (count : Option Nat)
    (h0 : 0 < s.length) (h1 : nuc.length = s.length + 1) :
    frequence s nuc count = .error .zeroDiv := by
  unfold frequence
  rw [if_neg (by omega), if_neg (by omega), if_pos (by omega)]

theorem combinations_all_mem (inl : List Char) :
    ∀ (n : Nat) (out : List (List Char)),
      (∀ w ∈ out, ∀ c ∈ w, c ∈ inl) →
      ∀ w ∈ combinations n inl out, ∀ c ∈ w, c ∈ inl := by
  intro n
  induction n with
  | zero =>
    intro out hout
    simpa [combinations] using hout
  | succ m ih =>
    intro out hout
    simp only [combinations]
    by_cases he : out.isEmpty
    · rw [if_pos he]
      apply ih
      intro w hw c hc
      obtain ⟨x, hx, rfl⟩ := List.mem_map.mp hw
      simp only [List.mem_singleton] at hc
      exact hc ▸ hx
    · rw [if_neg he]
      apply ih
      intro w hw c hc
      obtain ⟨e, he', hw'⟩ := List.mem_flatMap.mp hw
      obtain ⟨x, hx, rfl⟩ := List.mem_map.mp hw'
      rcases List.mem_append.mp hc with hce | hcx
      · exact hout e he' c hce
      · simp only [List.mem_singleton] at hcx
        exact hcx ▸ hx

theorem combinations_length (inl : List Char) (hinl : inl ≠ []) :
    ∀ (n : Nat) (out : List (List Char)) (L : Nat),
      out ≠ [] → (∀ w ∈ out, w.length = L) →
      (∀ w ∈ combinations n inl out, w.length = L + n) ∧
        combinations n inl out ≠ [] := by
  intro n
  induction n with
  | zero =>
    intro out L hne hout
    refine ⟨?_, by simpa [combinations] using hne⟩
    intro w hw
    simpa [combinations] using hout w (by simpa [combinations] using hw)
  | succ m ih =>
    intro out L hne hout
    have he : out.isEmpty = false := by
      cases out with
      | nil => exact absurd rfl hne
      | cons a l => rfl
    simp only [combinations, he, Bool.false_eq_true, if_false]
    have hext_ne : out.flatMap (fun e => inl.map (fun c => e ++ [c])) ≠ [] := by
      cases out with
      | nil => exact absurd rfl hne
      | cons a l =>
        cases inl with
        | nil => exact absurd rfl hinl
        | cons b bl => simp
    have hext_len : ∀ w ∈ out.flatMap (fun e => inl.map (fun c => e ++ [c])),
        w.length = L + 1 := by
      intro w hw
      obtain ⟨e, he', hw'⟩ := List.mem_flatMap.mp hw
      obtain ⟨x, _, rfl⟩ := List.mem_map.mp hw'
      have := hout e he'
      simp [this]
    have h := ih _ (L + 1) hext_ne hext_len
    refine ⟨?_, h.2⟩
    intro w hw
    have := h.1 w hw
    omega

theorem combinations_init (inl : List Char) (hinl : inl ≠ []) (n : Nat) (hn : n ≠ 0) :
    (∀ w ∈ combinations n inl [], w.length = n) ∧ combinations n inl [] ≠ [] := by
  cases n with
  | zero => exact absurd rfl hn
  | succ m =>
    have hseed_ne : inl.map (fun c => [c]) ≠ [] := by
      cases inl with
      | nil => exact absurd rfl hinl
      | cons b bl => simp
    have hseed_len : ∀ w ∈ inl.map (fun c => [c]), w.length = 1 := by
      intro w hw
      obtain ⟨c, _, rfl⟩ := List.mem_map.mp hw
      rfl
    have hstep : combinations (m + 1) inl [] =
        combinations m inl (inl.map (fun c => [c])) := by
      simp [combinations]
    have h := combinations_length inl hinl m _ 1 hseed_ne hseed_len
    constructor
    · intro w hw
      rw [hstep] at hw
      have := h.1 w hw
      omega
    · rw [hstep]
      exact h.2

/-! ## Support lemmas on `nucFrequencies` and `thirdOrderBias` -/

theorem nucFrequencies_mapM_mono_ok (s : List Char) :
    ∃ md, (monoNucs.mapM (fun c =>
      (frequence s [c] (some (betterCount s [c]))).map
        (fun f => (c, betterCount s [c], f)))) = .ok md := by
  apply mapM_ok_of_forall_ok
  intro c _
  obtain ⟨q, hq⟩ := frequence_ok_of s [c] (some (betterCount s [c])) (by
    rintro ⟨h1, h2⟩
    simp only [List.length_singleton] at h2
    omega)
  exact ⟨_, by rw [hq, except_map_ok]⟩

theorem nucFrequencies_mapM_desired_ok (s : List Char) (len : Nat)
    (h : ¬ (0 < s.length ∧ len = s.length + 1)) :
    ∃ dd, ((combinations len monoNucs []).mapM
      (fun nuc => (frequence s nuc none).map (fun f => (nuc, f)))) = .ok dd := by
  apply mapM_ok_of_forall_ok
  intro nuc hnuc
  by_cases hn0 : len = 0
  · subst hn0
    simp [combinations] at hnuc
  · have hlen := (combinations_init monoNucs (by simp [monoNucs]) len hn0).1 nuc hnuc
    obtain ⟨q, hq⟩ := frequence_ok_of s nuc none (by rw [hlen]; exact h)
    exact ⟨_, by rw [hq, except_map_ok]⟩

theorem nucFrequencies_ok (s : List Char) (len : Nat)
    (h : ¬ (0 < s.length ∧ len = s.length + 1)) :
    ∃ nf, nucFrequencies s len = .ok nf := by
  obtain ⟨md, hmd⟩ := nucFrequencies_mapM_mono_ok s
  obtain ⟨dd, hdd⟩ := nucFrequencies_mapM_desired_ok s len h
  by_cases hc : s.length = (md.map (fun p => p.2.1)).sum
  · exact ⟨_, by
      unfold nucFrequencies
      rw [hmd, except_bind_ok, hdd, except_bind_ok, if_pos hc]⟩
  · exact ⟨_, by
      unfold nucFrequencies
      rw [hmd, except_bind_ok, hdd, except_bind_ok, if_neg hc]⟩

theorem nodup_nucFreqBase (md : List (Char × Nat × ℚ)) (dd : FreqDict) :
    (dkeys (nucFreqBase md dd)).Nodup := by
  unfold nucFreqBase
  exact foldl_preserve (fun d => (dkeys d).Nodup)
    (fun d p hd => dkeys_nodup_dset hd) dd _
    (foldl_preserve (fun d => (dkeys d).Nodup)
      (fun d p hd => dkeys_nodup_dset hd) md [] (by simp [dkeys]))

theorem nodup_nucFreqMonoDegen (s : List Char) (d2 : FreqDict)
    (h : (dkeys d2).Nodup) : (dkeys (nucFreqMonoDegen s d2)).Nodup := by
  unfold nucFreqMonoDegen
  refine foldl_preserve (fun d => (dkeys d).Nodup) ?step s d2 h
  intro d c hd
  by_cases hc : c ∉ monoNucs
  · rw [if_pos hc]
    cases halist : alistGet NA_IUPAC c with
    | none => exact hd
    | some subs =>
      exact foldl_preserve (fun d => (dkeys d).Nodup)
        (fun d sub hsub => dkeys_nodup_dset hsub) subs d hd
  · rw [if_neg hc]
    exact hd

theorem nodup_nucFreqOligoDegen (s : List Char) (len : Nat) (d3 : FreqDict)
    (h : (dkeys d3).Nodup) : (dkeys (nucFreqOligoDegen s len d3)).Nodup := by
  unfold nucFreqOligoDegen
  refine foldl_preserve (fun d => (dkeys d).Nodup) ?step (nucList s len) d3 h
  intro d nuc hd
  by_cases hc : nuc ∈ combinations len monoNucs []
  · rw [if_pos hc]
    exact hd
  · rw [if_neg hc]
    exact foldl_preserve (fun d => (dkeys d).Nodup)
      (fun d rn hrn => dkeys_nodup_dset hrn) _ d hd

theorem nucFrequencies_nodup (s : List Char) (len : Nat) (nf : FreqDict)
    (h : nucFrequencies s len = .ok nf) : (dkeys nf).Nodup := by
  unfold nucFrequencies at h
  cases hmd : (monoNucs.mapM (fun c =>
      (frequence s [c] (some (betterCount s [c]))).map
        (fun f => (c, betterCount s [c], f)))) with
  | error e =>
    rw [hmd, except_bind_error] at h
    cases h
  | ok md =>
    rw [hmd, except_bind_ok] at h
    cases hdd : ((combinations len monoNucs []).mapM
        (fun nuc => (frequence s nuc none).map (fun f => (nuc, f)))) with
    | error e =>
      rw [hdd, except_bind_error] at h
      cases h
    | ok dd =>
      rw [hdd, except_bind_ok] at h
      by_cases hc : s.length = (md.map (fun p => p.2.1)).sum
      · rw [if_pos hc] at h
        cases h
        exact nodup_nucFreqBase md dd
      · rw [if_neg hc] at h
        cases h
        unfold nucFreqDegenerate
        by_cases hl : len = 1
        · rw [if_pos hl]
          exact nodup_nucFreqMonoDegen s _ (nodup_nucFreqBase md dd)
        · rw [if_neg hl]
          exact nodup_nucFreqOligoDegen s len _
            (nodup_nucFreqMonoDegen s _ (nodup_nucFreqBase md dd))

theorem thirdOrderBias_invalid (seq : List Char) (strand : Nat)
    (h : seq.length ≤ 2) : thirdOrderBias seq strand = .error .invalidInput := by
  unfold thirdOrderBias
  rw [if_pos (by omega)]

theorem thirdOrderBias_ok (seq : List Char) (h : 2 < seq.length) :
    ∃ d, thirdOrderBias seq 1 = .ok d := by
  obtain ⟨nf2, h2⟩ := nucFrequencies_ok seq 2 (by omega)
  obtain ⟨nf3, h3⟩ := nucFrequencies_ok seq 3 (by omega)
  unfold thirdOrderBias
  rw [if_neg (by omega), if_neg (by simp), h2, except_bind_ok, h3, except_bind_ok]
  exact ⟨_, rfl⟩

/-! ## Support lemmas for the strand-2 reverse-complement symmetry -/

theorem pyTranscript_mono {y : Char} (hy : y ∈ monoNucs) :
    pyTranscript y ∈ monoNucs ∧ pyTranscript (pyTranscript y) = y := by
  fin_cases hy <;> exact ⟨by decide, by decide⟩

theorem reverseComplement_invol {x : List Char} (hx : ∀ c ∈ x, c ∈ monoNucs) :
    reverseComplement (reverseComplement x) = x := by
  unfold reverseComplement
  rw [← List.map_reverse, List.reverse_reverse, List.map_map]
  have : ∀ c ∈ x, (pyTranscript ∘ pyTranscript) c = id c := by
    intro c hc
    simpa using (pyTranscript_mono (hx c hc)).2
  rw [List.map_congr_left this, List.map_id]

theorem monoDual_eq (m : FreqDict) (y : Char) (hy : y ∈ monoNucs) :
    monoDual m y = (dgetE m [y]) >>= fun a =>
      (dgetE m [pyTranscript y]) >>= fun b => pure (a + b) := by
  fin_cases hy <;> rfl

theorem monoDual_comp (m : FreqDict) (y : Char) (hy : y ∈ monoNucs) (t : ℚ)
    (h : monoDual m y = .ok t) : monoDual m (pyTranscript y) = .ok t := by
  obtain ⟨hy1, hy2⟩ := pyTranscript_mono hy
  rw [monoDual_eq m y hy] at h
  rw [monoDual_eq m (pyTranscript y) hy1, hy2]
  cases ha : dgetE m [y] with
  | error e => rw [ha, except_bind_error] at h; cases h
  | ok a =>
    rw [ha, except_bind_ok] at h
    cases hb : dgetE m [pyTranscript y] with
    | error e => rw [hb, except_bind_error] at h; cases h
    | ok b =>
      rw [hb, except_bind_ok] at h
      have ht : a + b = t := by
        have h' : (Except.ok (a + b) : Except PyErr ℚ) = .ok t := h
        injection h'
      show (Except.ok (b + a) : Except PyErr ℚ) = .ok t
      rw [add_comm, ht]

theorem mapM_map_comp {α β : Type} (g : α → α) (f : α → Except PyErr β) :
    ∀ (l : List α) (bs : List β),
      (∀ a ∈ l, ∀ b, f a = .ok b → f (g a) = .ok b) →
      l.mapM f = .ok bs → (l.map g).mapM f = .ok bs := by
  intro l
  induction l with
  | nil => intro bs _ h; simpa using h
  | cons a l ih =>
    intro bs hg h
    rw [List.mapM_cons] at h
    cases hfa : f a with
    | error e => rw [hfa, except_bind_error] at h; cases h
    | ok b =>
      rw [hfa, except_bind_ok] at h
      cases hl : l.mapM f with
      | error e => rw [hl, except_bind_error] at h; cases h
      | ok bs' =>
        rw [hl, except_bind_ok] at h
        rw [List.map_cons, List.mapM_cons,
          hg a (List.mem_cons_self a l) b hfa, except_bind_ok,
          ih bs' (fun a' ha' => hg a' (List.mem_cons_of_mem a ha')) hl,
          except_bind_ok]
        exact h

theorem mapM_reverse_ok {α β : Type} (f : α → Except PyErr β) :
    ∀ (l : List α) (bs : List β), l.mapM f = .ok bs →
      l.reverse.mapM f = .ok bs.reverse := by
  intro l
  induction l with
  | nil =>
    intro bs h
    simp only [List.mapM_nil] at h
    have h' : (Except.ok ([] : List β) : Except PyErr (List β)) = .ok bs := h
    injection h' with h''
    subst h''
    simp only [List.reverse_nil, List.mapM_nil]
    rfl
  | cons a l ih =>
    intro bs h
    rw [List.mapM_cons] at h
    cases hfa : f a with
    | error e => rw [hfa, except_bind_error] at h; cases h
    | ok b =>
      rw [hfa, except_bind_ok] at h
      cases hl : l.mapM f with
      | error e => rw [hl, except_bind_error] at h; cases h
      | ok bs' =>
        rw [hl, except_bind_ok] at h
        have hb : bs = b :: bs' := by
          have h' : (Except.ok (b :: bs') : Except PyErr (List β)) = .ok bs := h
          injection h' with h''
          exact h''.symm
        subst hb
        rw [List.reverse_cons, List.mapM_append, ih bs' hl, except_bind_ok]
        show (List.mapM f [a]) >>= (fun bs2 => pure (bs'.reverse ++ bs2)) =
          .ok (b :: bs').reverse
        rw [List.mapM_cons, hfa, except_bind_ok, List.mapM_nil]
        show (Except.ok (bs'.reverse ++ [b]) : Except PyErr (List β)) = _
        rw [List.reverse_cons]

/-- The `product` of the source is the ordinary list product. -/
theorem product_eq_prod (l : List ℚ) : product l = l.prod := by
  rw [List.prod_eq_foldl]
  rfl

theorem product_reverse (l : List ℚ) : product l.reverse = product l := by
  rw [product_eq_prod, product_eq_prod, List.prod_reverse]

theorem mapM_monoDual_rc (m : FreqDict) (x : List Char)
    (hx : ∀ c ∈ x, c ∈ monoNucs) (ts : List ℚ)
    (h : x.mapM (monoDual m) = .ok ts) :
    (reverseComplement x).mapM (monoDual m) = .ok ts.reverse := by
  unfold reverseComplement
  apply mapM_reverse_ok
  apply mapM_map_comp pyTranscript (monoDual m) x ts ?hg h
  intro a ha b hb
  exact monoDual_comp m a (hx a ha) b hb

theorem dget_some_mem {d : FreqDict} {k : List Char} {v : ℚ}
    (h : dget d k = some v) : (k, v) ∈ d := by
  induction d with
  | nil => cases h
  | cons p ps ih =>
    rw [dget_cons] at h
    by_cases hp : p.1 = k
    · rw [if_pos hp] at h
      injection h with hv
      have hpv : p = (k, v) := by
        cases p
        simp only [Prod.mk.injEq]
        exact ⟨hp, hv⟩
      rw [← hpv]
      exact List.mem_cons_self p ps
    · rw [if_neg hp] at h
      exact List.mem_cons_of_mem _ (ih h)

theorem strand2Try_ok_inv (oD mD : FreqDict) (n : Nat) (x : List Char) (v : ℚ)
    (h : strand2Try oD mD n x = .ok v) :
    ∃ ox orc ts, dgetE oD x = .ok ox ∧
      dgetE oD (reverseComplement x) = .ok orc ∧
      x.mapM (monoDual mD) = .ok ts ∧ product ts ≠ 0 ∧
      v = 2 ^ (n - 1) * (ox + orc) / product ts := by
  unfold strand2Try at h
  cases h1 : dgetE oD x with
  | error e => rw [h1, except_bind_error] at h; cases h
  | ok ox =>
    rw [h1, except_bind_ok] at h
    cases h2 : dgetE oD (reverseComplement x) with
    | error e => rw [h2, except_bind_error] at h; cases h
    | ok orc =>
      rw [h2, except_bind_ok] at h
      cases h3 : x.mapM (monoDual mD) with
      | error e => rw [h3, except_bind_error] at h; cases h
      | ok ts =>
        rw [h3, except_bind_ok] at h
        by_cases hden : product ts = 0
        · rw [if_pos hden] at h
          cases h
        · rw [if_neg hden] at h
          have h' : (Except.ok (2 ^ (n - 1) * (ox + orc) / product ts) :
              Except PyErr ℚ) = .ok v := h
          injection h' with h''
          exact ⟨ox, orc, ts, rfl, rfl, rfl, hden, h''.symm⟩

theorem strand2Safe_ok_inv (oD mD : FreqDict) (n : Nat) (x : List Char) (v : ℚ)
    (h : strand2Safe oD mD n x = .ok v) :
    ∃ ox orc ts, dgetE oD x = .ok ox ∧
      dgetE oD (reverseComplement x) = .ok orc ∧
      x.mapM (monoDual mD) = .ok ts ∧
      v = 2 ^ (n - 1) * zeroDivision (ox + orc) (product ts) := by
  unfold strand2Safe at h
  cases h1 : dgetE oD x with
  | error e => rw [h1, except_bind_error] at h; cases h
  | ok ox =>
    rw [h1, except_bind_ok] at h
    cases h2 : dgetE oD (reverseComplement x) with
    | error e => rw [h2, except_bind_error] at h; cases h
    | ok orc =>
      rw [h2, except_bind_ok] at h
      cases h3 : x.mapM (monoDual mD) with
      | error e => rw [h3, except_bind_error] at h; cases h
      | ok ts =>
        rw [h3, except_bind_ok] at h
        have h' : (Except.ok (2 ^ (n - 1) * zeroDivision (ox + orc) (product ts)) :
            Except PyErr ℚ) = .ok v := h
        injection h' with h''
        exact ⟨ox, orc, ts, rfl, rfl, rfl, h''.symm⟩

theorem strand2Try_sym (oD mD : FreqDict) (n : Nat) (x : List Char)
    (hx : ∀ c ∈ x, c ∈ monoNucs) (v v' : ℚ)
    (h : strand2Try oD mD n x = .ok v)
    (h' : strand2Try oD mD n (reverseComplement x) = .ok v') : v = v' := by
  obtain ⟨ox, orc, ts, h1, h2, h3, h4, h5⟩ := strand2Try_ok_inv oD mD n x v h
  obtain ⟨ox', orc', ts', h1', h2', h3', h4', h5'⟩ :=
    strand2Try_ok_inv oD mD n (reverseComplement x) v' h'
  rw [reverseComplement_invol hx] at h2'
  rw [h2] at h1'
  injection h1' with e1
  rw [h1] at h2'
  injection h2' with e2
  rw [mapM_monoDual_rc mD x hx ts h3] at h3'
  injection h3' with e3
  rw [h5, h5', ← e1, ← e2, ← e3, product_reverse, add_comm orc ox]

theorem strand2Safe_sym (oD mD : FreqDict) (n : Nat) (x : List Char)
    (hx : ∀ c ∈ x, c ∈ monoNucs) (v v' : ℚ)
    (h : strand2Safe oD mD n x = .ok v)
    (h' : strand2Safe oD mD n (reverseComplement x) = .ok v') : v = v' := by
  obtain ⟨ox, orc, ts, h1, h2, h3, h5⟩ := strand2Safe_ok_inv oD mD n x v h
  obtain ⟨ox', orc', ts', h1', h2', h3', h5'⟩ :=
    strand2Safe_ok_inv oD mD n (reverseComplement x) v' h'
  rw [reverseComplement_invol hx] at h2'
  rw [h2] at h1'
  injection h1' with e1
  rw [h1] at h2'
  injection h2' with e2
  rw [mapM_monoDual_rc mD x hx ts h3] at h3'
  injection h3' with e3
  rw [h5, h5', ← e1, ← e2, ← e3, product_reverse, add_comm orc ox]

theorem comprehendRetry_strand2_sym (keys : List (List Char))
    (oD mD : FreqDict) (n : Nat) (d : FreqDict) (x : List Char)
    (hx : ∀ c ∈ x, c ∈ monoNucs) (v v' : ℚ)
    (hok : comprehendRetry keys (strand2Try oD mD n) (strand2Safe oD mD n) = .ok d)
    (hv : dget d x = some v) (hv' : dget d (reverseComplement x) = some v') :
    v = v' := by
  unfold comprehendRetry at hok
  cases h1 : keys.mapM (strand2Try oD mD n) with
  | ok vs =>
    rw [h1] at hok
    injection hok with hd
    subst hd
    exact strand2Try_sym oD mD n x hx v v'
      (dget_zip_mapM _ keys vs h1 x v hv)
      (dget_zip_mapM _ keys vs h1 _ v' hv')
  | error e =>
    rw [h1] at hok
    cases e with
    | invalidInput => cases hok
    | keyError => cases hok
    | zeroDiv =>
      cases h2 : keys.mapM (strand2Safe oD mD n) with
      | error e' => rw [h2] at hok; cases hok
      | ok vs =>
        rw [h2] at hok
        injection hok with hd
        subst hd
        exact strand2Safe_sym oD mD n x hx v v'
          (dget_zip_mapM _ keys vs h2 x v hv)
          (dget_zip_mapM _ keys vs h2 _ v' hv')

/-! ## Support lemmas for the error taxonomy on short sequences -/

theorem alistGet_some_mem {α β : Type} [DecidableEq α] :
    ∀ (l : List (α × β)) (k : α) (v : β), alistGet l k = some v → (k, v) ∈ l := by
  intro l
  induction l with
  | nil => intro k v h; cases h
  | cons p ps ih =>
    intro k v h
    have hc : alistGet (p :: ps) k =
        if p.1 = k then some p.2 else alistGet ps k := rfl
    rw [hc] at h
    by_cases hp : p.1 = k
    · rw [if_pos hp] at h
      injection h with hv
      have hpv : p = (k, v) := by
        cases p
        simp only [Prod.mk.injEq]
        exact ⟨hp, hv⟩
      rw [← hpv]
      exact List.mem_cons_self p ps
    · rw [if_neg hp] at h
      exact List.mem_cons_of_mem _ (ih k v h)

theorem NA_IUPAC_values_canonical :
    ∀ p ∈ NA_IUPAC, (∀ c ∈ p.2, c ∈ monoNucs) ∧ p.2 ≠ [] := by decide

theorem iupac_lookup_canonical {c : Char} {subs : List Char}
    (h : alistGet NA_IUPAC c = some subs) : ∀ n ∈ subs, n ∈ monoNucs :=
  (NA_IUPAC_values_canonical (c, subs) (alistGet_some_mem _ _ _ h)).1

theorem except_map_ok_inv {α β : Type} (e : Except PyErr α) (f : α → β) (b : β)
    (h : e.map f = .ok b) : ∃ a, e = .ok a ∧ b = f a := by
  cases e with
  | ok a =>
    refine ⟨a, rfl, ?_⟩
    have h' : (Except.ok (f a) : Except PyErr β) = .ok b := h
    injection h' with h''
    exact h''.symm
  | error e' => cases h

theorem dgetE_ok {d : FreqDict} {k : List Char} (h : (dget d k).isSome) :
    ∃ v, dgetE d k = .ok v := by
  unfold dgetE
  cases hh : dget d k with
  | none => rw [hh] at h; simp at h
  | some v => exact ⟨v, rfl⟩

theorem dkeys_pred_dset {Q : List Char → Prop} {d : FreqDict} {k : List Char}
    {v : ℚ} (hd : ∀ k' ∈ dkeys d, Q k') (hk : Q k) :
    ∀ k' ∈ dkeys (dset d k v), Q k' := by
  intro k' h'
  rcases dset_keys_subset d k k' v h' with h1 | h1
  · exact hd k' h1
  · exact h1 ▸ hk

theorem dget_filter_key (q : List Char → Bool) (d : FreqDict) (k : List Char)
    (hq : q k = true) :
    dget (d.filter (fun p => q p.1)) k = dget d k := by
  induction d with
  | nil => rfl
  | cons p ps ih =>
    rw [List.filter_cons]
    split
    · rw [dget_cons, dget_cons]
      by_cases hp : p.1 = k
      · rw [if_pos hp, if_pos hp]
      · rw [if_neg hp, if_neg hp]
        exact ih
    · next hqp =>
      have hp : p.1 ≠ k := by
        intro hh
        exact hqp (by simpa [hh] using hq)
      rw [dget_cons, if_neg hp]
      exact ih

theorem dkeys_filter_mem {q : List Char → Bool} {d : FreqDict} {k : List Char}
    (h : k ∈ dkeys (d.filter (fun p => q p.1))) : k ∈ dkeys d := by
  have hs : List.Sublist (dkeys (d.filter (fun p => q p.1))) (dkeys d) :=
    List.Sublist.map _ (List.filter_sublist d)
  exact hs.subset h

theorem pyProduct_mem (ks : List Char) :
    ∀ (n : Nat) (w : List Char), w ∈ pyProduct ks n → ∀ c ∈ w, c ∈ ks := by
  intro n
  induction n with
  | zero =>
    intro w hw c hc
    simp only [pyProduct, List.mem_singleton] at hw
    subst hw
    cases hc
  | succ m ih =>
    intro w hw c hc
    simp only [pyProduct] at hw
    obtain ⟨x, hx, hw'⟩ := List.mem_flatMap.mp hw
    obtain ⟨t, ht, rfl⟩ := List.mem_map.mp hw'
    rcases List.mem_cons.mp hc with rfl | hct
    · exact hx
    · exact ih t ht c hct

theorem dget_isSome_dset {d : FreqDict} {k k0 : List Char} {v : ℚ}
    (h : (dget d k0).isSome) : (dget (dset d k v) k0).isSome := by
  rw [dget_dset]
  by_cases hk : k0 = k
  · rw [if_pos hk]
    rfl
  · rw [if_neg hk]
    exact h

theorem dget_isSome_foldl_of_mem {α : Type} (keyOf : α → List Char)
    (valOf : FreqDict → α → ℚ) :
    ∀ (l : List α) (init : FreqDict) (k : List Char),
      ((∃ a ∈ l, keyOf a = k) ∨ (dget init k).isSome) →
      (dget (l.foldl (fun d a => dset d (keyOf a) (valOf d a)) init) k).isSome := by
  intro l
  induction l with
  | nil =>
    intro init k h
    rcases h with ⟨a, ha, _⟩ | h
    · cases ha
    · exact h
  | cons a l ih =>
    intro init k h
    rw [List.foldl_cons]
    by_cases hk : keyOf a = k
    · apply ih
      right
      rw [dget_dset, if_pos hk.symm]
      rfl
    · apply ih
      rcases h with ⟨a', ha', hka'⟩ | h
      · rcases List.mem_cons.mp ha' with rfl | ha'
        · exact absurd hka' hk
        · exact Or.inl ⟨a', ha', hka'⟩
      · exact Or.inr (dget_isSome_dset h)

theorem nucList_mem_shape (s : List Char) (len : Nat) :
    ∀ w ∈ nucList s len, w.length = len ∧ ∀ c ∈ w, c ∈ s := by
  intro w hw
  unfold nucList at hw
  obtain ⟨x, hx, rfl⟩ := List.mem_map.mp hw
  have hxr := List.mem_range.mp hx
  constructor
  · rw [List.length_take, List.length_drop]
    omega
  · intro c hc
    exact List.mem_of_mem_drop (List.mem_of_mem_take hc)

theorem forall2_mem_right {α β : Type} {R : α → β → Prop} :
    ∀ {l : List α} {bs : List β}, List.Forall₂ R l bs →
      ∀ b ∈ bs, ∃ a ∈ l, R a b := by
  intro l bs h
  induction h with
  | nil => intro b hb; cases hb
  | cons hR hTail ih =>
    intro b hb
    rcases List.mem_cons.mp hb with rfl | hb
    · exact ⟨_, List.mem_cons_self _ _, hR⟩
    · obtain ⟨a, ha, hra⟩ := ih b hb
      exact ⟨a, List.mem_cons_of_mem _ ha, hra⟩

theorem forall2_mem_left {α β : Type} {R : α → β → Prop} :
    ∀ {l : List α} {bs : List β}, List.Forall₂ R l bs →
      ∀ a ∈ l, ∃ b ∈ bs, R a b := by
  intro l bs h
  induction h with
  | nil => intro a ha; cases ha
  | cons hR hTail ih =>
    intro a ha
    rcases List.mem_cons.mp ha with rfl | ha
    · exact ⟨_, List.mem_cons_self _ _, hR⟩
    · obtain ⟨b, hb, hrb⟩ := ih a ha
      exact ⟨b, List.mem_cons_of_mem _ hb, hrb⟩

theorem makeCombStep_shape (c : Char) (hc : (alistGet NA_IUPAC c).isSome)
    (acc : List (List Char)) (L : Nat) (hacc : acc ≠ [])
    (hsh : ∀ e ∈ acc, (∀ x ∈ e, x ∈ monoNucs) ∧ e.length = L) :
    (∀ e ∈ makeCombStep acc c, (∀ x ∈ e, x ∈ monoNucs) ∧ e.length = L + 1) ∧
      makeCombStep acc c ≠ [] := by
  obtain ⟨subs, hsubs⟩ := Option.isSome_iff_exists.mp hc
  have hcanon := iupac_lookup_canonical hsubs
  have hne : subs ≠ [] := (NA_IUPAC_values_canonical (c, subs)
    (alistGet_some_mem _ _ _ hsubs)).2
  unfold makeCombStep
  rw [hsubs]
  have hEmpty : acc.isEmpty = false := by
    cases acc with
    | nil => exact absurd rfl hacc
    | cons a as => rfl
  simp only [Option.getD_some, hEmpty, Bool.false_eq_true, if_false]
  constructor
  · intro e he
    obtain ⟨x, hx, he'⟩ := List.mem_flatMap.mp he
    obtain ⟨n, hn, rfl⟩ := List.mem_map.mp he'
    obtain ⟨hxc, hxl⟩ := hsh x hx
    constructor
    · intro ch hch
      rcases List.mem_append.mp hch with hch | hch
      · exact hxc ch hch
      · rw [List.mem_singleton] at hch
        exact hch ▸ hcanon n hn
    · simp [hxl]
  · cases acc with
    | nil => exact absurd rfl hacc
    | cons a as =>
      cases subs with
      | nil => exact absurd rfl hne
      | cons n ns => simp

theorem makeComb_fold_shape :
    ∀ (w : List Char) (acc : List (List Char)) (L : Nat),
      (∀ c ∈ w, (alistGet NA_IUPAC c).isSome) → acc ≠ [] →
      (∀ e ∈ acc, (∀ x ∈ e, x ∈ monoNucs) ∧ e.length = L) →
      (∀ e ∈ w.foldl makeCombStep acc,
        (∀ x ∈ e, x ∈ monoNucs) ∧ e.length = L + w.length) ∧
        w.foldl makeCombStep acc ≠ [] := by
  intro w
  induction w with
  | nil =>
    intro acc L _ hacc hsh
    exact ⟨by simpa using hsh, hacc⟩
  | cons c w ih =>
    intro acc L hw hacc hsh
    rw [List.foldl_cons]
    have hstep := makeCombStep_shape c (hw c (List.mem_cons_self c w)) acc L hacc hsh
    have hrest := ih (makeCombStep acc c) (L + 1)
      (fun c' hc' => hw c' (List.mem_cons_of_mem c hc')) hstep.2 hstep.1
    refine ⟨?_, hrest.2⟩
    intro e he
    obtain ⟨hcanon, hlen⟩ := hrest.1 e he
    refine ⟨hcanon, ?_⟩
    rw [hlen]
    simp only [List.length_cons]
    omega

theorem makeCombinations_shape (w : List Char)
    (hw : ∀ c ∈ w, (alistGet NA_IUPAC c).isSome) :
    ∀ e ∈ makeCombinations w, (∀ x ∈ e, x ∈ monoNucs) ∧ e.length = w.length := by
  intro e he
  unfold makeCombinations at he
  have he' := List.mem_dedup.mp he
  cases w with
  | nil => cases he'
  | cons c w' =>
    rw [List.foldl_cons] at he'
    have hc := hw c (List.mem_cons_self c w')
    obtain ⟨subs, hsubs⟩ := Option.isSome_iff_exists.mp hc
    have hseed : (∀ e ∈ makeCombStep [] c,
        (∀ x ∈ e, x ∈ monoNucs) ∧ e.length = 1) ∧ makeCombStep [] c ≠ [] := by
      unfold makeCombStep
      rw [hsubs]
      simp only [Option.getD_some, List.isEmpty_nil, if_true]
      constructor
      · intro e he
        obtain ⟨n, hn, rfl⟩ := List.mem_map.mp he
        refine ⟨?_, rfl⟩
        intro x hx
        rw [List.mem_singleton] at hx
        exact hx ▸ iupac_lookup_canonical hsubs n hn
      · have hne := (NA_IUPAC_values_canonical (c, subs)
          (alistGet_some_mem _ _ _ hsubs)).2
        cases subs with
        | nil => exact absurd rfl hne
        | cons n ns => simp
    have hrest := makeComb_fold_shape w' (makeCombStep [] c) 1
      (fun c' hc' => hw c' (List.mem_cons_of_mem c hc')) hseed.2 hseed.1
    obtain ⟨hcn, hln⟩ := hrest.1 e he'
    refine ⟨hcn, ?_⟩
    rw [hln]
    simp only [List.length_cons]
    omega

theorem dkeys_pred_nucFreqBase {Q : List Char → Prop}
    (md : List (Char × Nat × ℚ)) (dd : FreqDict)
    (hmd : ∀ p ∈ md, Q [p.1]) (hdd : ∀ p ∈ dd, Q p.1) :
    ∀ k ∈ dkeys (nucFreqBase md dd), Q k := by
  unfold nucFreqBase
  refine foldl_preserve_mem (fun d => ∀ k ∈ dkeys d, Q k) dd ?outer _ ?init
  case init =>
    refine foldl_preserve_mem (fun d => ∀ k ∈ dkeys d, Q k) md ?inner [] ?nil
    case nil =>
      intro k hk
      simp [dkeys] at hk
    case inner =>
      intro d p hp hd
      exact dkeys_pred_dset hd (hmd p hp)
  case outer =>
    intro d p hp hd
    exact dkeys_pred_dset hd (hdd p hp)

theorem dkeys_pred_nucFreqMonoDegen {Q : List Char → Prop} (s : List Char)
    (d2 : FreqDict) (hQ1 : ∀ c ∈ monoNucs, Q [c])
    (hd : ∀ k ∈ dkeys d2, Q k) : ∀ k ∈ dkeys (nucFreqMonoDegen s d2), Q k := by
  unfold nucFreqMonoDegen
  refine foldl_preserve (fun d => ∀ k ∈ dkeys d, Q k) ?step s d2 hd
  intro d c hdk
  by_cases hc : c ∉ monoNucs
  · rw [if_pos hc]
    cases halist : alistGet NA_IUPAC c with
    | none => exact hdk
    | some subs =>
      refine foldl_preserve_mem (fun d => ∀ k ∈ dkeys d, Q k) subs ?inner d hdk
      intro d' sub hsub hd'
      exact dkeys_pred_dset hd' (hQ1 sub (iupac_lookup_canonical halist sub hsub))
  · rw [if_neg hc]
    exact hdk

theorem dkeys_pred_nucFreqOligoDegen {Q : List Char → Prop} (s : List Char)
    (len : Nat) (d3 : FreqDict)
    (hQ2 : ∀ nuc ∈ nucList s len, ∀ rn ∈ makeCombinations nuc, Q rn)
    (hd : ∀ k ∈ dkeys d3, Q k) : ∀ k ∈ dkeys (nucFreqOligoDegen s len d3), Q k := by
  unfold nucFreqOligoDegen
  refine foldl_preserve_mem (fun d => ∀ k ∈ dkeys d, Q k) (nucList s len) ?step d3 hd
  intro d nuc hnuc hdk
  by_cases hc : nuc ∈ combinations len monoNucs []
  · rw [if_pos hc]
    exact hdk
  · rw [if_neg hc]
    refine foldl_preserve_mem (fun d => ∀ k ∈ dkeys d, Q k) _ ?inner d hdk
    intro d' rn hrn hd'
    exact dkeys_pred_dset hd' (hQ2 nuc hnuc rn hrn)

theorem dget_isSome_nucFreqMonoDegen (s : List Char) (d2 : FreqDict)
    (k : List Char) (h : (dget d2 k).isSome) :
    (dget (nucFreqMonoDegen s d2) k).isSome := by
  unfold nucFreqMonoDegen
  refine foldl_preserve (fun d => (dget d k).isSome) ?step s d2 h
  intro d c hd
  by_cases hc : c ∉ monoNucs
  · rw [if_pos hc]
    cases halist : alistGet NA_IUPAC c with
    | none => exact hd
    | some subs =>
      exact foldl_preserve (fun d => (dget d k).isSome)
        (fun d' sub hsub => dget_isSome_dset hsub) subs d hd
  · rw [if_neg hc]
    exact hd

theorem dget_isSome_nucFreqOligoDegen (s : List Char) (len : Nat)
    (d3 : FreqDict) (k : List Char) (h : (dget d3 k).isSome) :
    (dget (nucFreqOligoDegen s len d3) k).isSome := by
  unfold nucFreqOligoDegen
  refine foldl_preserve (fun d => (dget d k).isSome) ?step (nucList s len) d3 h
  intro d nuc hd
  by_cases hc : nuc ∈ combinations len monoNucs []
  · rw [if_pos hc]
    exact hd
  · rw [if_neg hc]
    exact foldl_preserve (fun d => (dget d k).isSome)
      (fun d' rn hrn => dget_isSome_dset hrn) _ d hd

theorem nucFrequencies_keys_shape (s : List Char) (len : Nat) (nf : FreqDict)
    (hs : ∀ c ∈ s, (alistGet NA_IUPAC c).isSome)
    (h : nucFrequencies s len = .ok nf) :
    ∀ k ∈ dkeys nf, (∀ c ∈ k, c ∈ monoNucs) ∧ (k.length = 1 ∨ k.length = len) := by
  unfold nucFrequencies at h
  cases hmd : (monoNucs.mapM (fun c =>
      (frequence s [c] (some (betterCount s [c]))).map
        (fun f => (c, betterCount s [c], f)))) with
  | error e => rw [hmd, except_bind_error] at h; cases h
  | ok md =>
    rw [hmd, except_bind_ok] at h
    cases hdd : ((combinations len monoNucs []).mapM
        (fun nuc => (frequence s nuc none).map (fun f => (nuc, f)))) with
    | error e => rw [hdd, except_bind_error] at h; cases h
    | ok dd =>
      rw [hdd, except_bind_ok] at h
      have hmd1 : ∀ p ∈ md, p.1 ∈ monoNucs := by
        intro p hp
        obtain ⟨a, ha, hR⟩ := forall2_mem_right (mapM_ok_forall2 _ _ _ hmd) p hp
        obtain ⟨q, -, hpq⟩ := except_map_ok_inv _ _ _ hR
        rw [hpq]
        exact ha
      have hdd1 : ∀ p ∈ dd, p.1 ∈ combinations len monoNucs [] := by
        intro p hp
        obtain ⟨a, ha, hR⟩ := forall2_mem_right (mapM_ok_forall2 _ _ _ hdd) p hp
        obtain ⟨q, -, hpq⟩ := except_map_ok_inv _ _ _ hR
        rw [hpq]
        exact ha
      have hQmd : ∀ p ∈ md, (∀ c ∈ [p.1], c ∈ monoNucs) ∧
          (([p.1] : List Char).length = 1 ∨ ([p.1] : List Char).length = len) := by
        intro p hp
        refine ⟨?_, Or.inl rfl⟩
        intro c hc
        rw [List.mem_singleton] at hc
        exact hc ▸ hmd1 p hp
      have hQdd : ∀ p ∈ dd, (∀ c ∈ p.1, c ∈ monoNucs) ∧
          (p.1.length = 1 ∨ p.1.length = len) := by
        intro p hp
        have hmem := hdd1 p hp
        constructor
        · exact combinations_all_mem monoNucs len [] (by intro w hw; cases hw) p.1 hmem
        · right
          by_cases hn0 : len = 0
          · subst hn0
            cases hmem
          · exact (combinations_init monoNucs (by simp [monoNucs]) len hn0).1 p.1 hmem
      have hbase : ∀ k ∈ dkeys (nucFreqBase md dd),
          (∀ c ∈ k, c ∈ monoNucs) ∧ (k.length = 1 ∨ k.length = len) :=
        dkeys_pred_nucFreqBase md dd hQmd hQdd
      by_cases hsum : s.length = (md.map (fun p => p.2.1)).sum
      · rw [if_pos hsum] at h
        injection h with hnf
        subst hnf
        exact hbase
      · rw [if_neg hsum] at h
        injection h with hnf
        subst hnf
        unfold nucFreqDegenerate
        have hQ1 : ∀ c ∈ monoNucs, (∀ x ∈ ([c] : List Char), x ∈ monoNucs) ∧
            (([c] : List Char).length = 1 ∨ ([c] : List Char).length = len) := by
          intro c hc
          refine ⟨?_, Or.inl rfl⟩
          intro x hx
          rw [List.mem_singleton] at hx
          exact hx ▸ hc
        have hmono3 := dkeys_pred_nucFreqMonoDegen s (nucFreqBase md dd) hQ1 hbase
        by_cases hl1 : len = 1
        · rw [if_pos hl1]
          exact hmono3
        · rw [if_neg hl1]
          refine dkeys_pred_nucFreqOligoDegen s len _ ?hw hmono3
          intro nuc hnuc rn hrn
          obtain ⟨hnlen, hnmem⟩ := nucList_mem_shape s len nuc hnuc
          have hniupac : ∀ c ∈ nuc, (alistGet NA_IUPAC c).isSome :=
            fun c hc => hs c (hnmem c hc)
          obtain ⟨hrc, hrl⟩ := makeCombinations_shape nuc hniupac rn hrn
          exact ⟨hrc, Or.inr (by rw [hrl, hnlen])⟩

theorem nucFrequencies_mono_present (s : List Char) (len : Nat) (nf : FreqDict)
    (h : nucFrequencies s len = .ok nf) :
    ∀ c ∈ monoNucs, (dget nf [c]).isSome := by
  unfold nucFrequencies at h
  cases hmd : (monoNucs.mapM (fun c =>
      (frequence s [c] (some (betterCount s [c]))).map
        (fun f => (c, betterCount s [c], f)))) with
  | error e => rw [hmd, except_bind_error] at h; cases h
  | ok md =>
    rw [hmd, except_bind_ok] at h
    cases hdd : ((combinations len monoNucs []).mapM
        (fun nuc => (frequence s nuc none).map (fun f => (nuc, f)))) with
    | error e => rw [hdd, except_bind_error] at h; cases h
    | ok dd =>
      rw [hdd, except_bind_ok] at h
      intro c hc
      have hcov : ∃ p ∈ md, p.1 = c := by
        obtain ⟨b, hb, hR⟩ := forall2_mem_left (mapM_ok_forall2 _ _ _ hmd) c hc
        obtain ⟨q, -, hpq⟩ := except_map_ok_inv _ _ _ hR
        exact ⟨b, hb, by rw [hpq]⟩
      have hd1 : (dget (md.foldl (fun d p => dset d [p.1] p.2.2) []) [c]).isSome := by
        refine dget_isSome_foldl_of_mem (fun p => [p.1]) (fun d p => p.2.2) md [] [c] ?_
        left
        obtain ⟨p, hp, hpc⟩ := hcov
        exact ⟨p, hp, by show [p.1] = [c]; rw [hpc]⟩
      have hd2 : (dget (nucFreqBase md dd) [c]).isSome := by
        unfold nucFreqBase
        exact foldl_preserve (fun d => (dget d [c]).isSome)
          (fun d p hd => dget_isSome_dset hd) dd _ hd1
      by_cases hsum : s.length = (md.map (fun p => p.2.1)).sum
      · rw [if_pos hsum] at h
        injection h with hnf
        subst hnf
        exact hd2
      · rw [if_neg hsum] at h
        injection h with hnf
        subst hnf
        unfold nucFreqDegenerate
        have hd3 := dget_isSome_nucFreqMonoDegen s _ [c] hd2
        by_cases hl1 : len = 1
        · rw [if_pos hl1]
          exact hd3
        · rw [if_neg hl1]
          exact dget_isSome_nucFreqOligoDegen s len _ [c] hd3

theorem nucFrequencies_oligo_present (s : List Char) (len : Nat) (nf : FreqDict)
    (h : nucFrequencies s len = .ok nf) :
    ∀ nuc ∈ combinations len monoNucs [], (dget nf nuc).isSome := by
  unfold nucFrequencies at h
  cases hmd : (monoNucs.mapM (fun c =>
      (frequence s [c] (some (betterCount s [c]))).map
        (fun f => (c, betterCount s [c], f)))) with
  | error e => rw [hmd, except_bind_error] at h; cases h
  | ok md =>
    rw [hmd, except_bind_ok] at h
    cases hdd : ((combinations len monoNucs []).mapM
        (fun nuc => (frequence s nuc none).map (fun f => (nuc, f)))) with
    | error e => rw [hdd, except_bind_error] at h; cases h
    | ok dd =>
      rw [hdd, except_bind_ok] at h
      intro nuc hnuc
      have hcov : ∃ p ∈ dd, p.1 = nuc := by
        obtain ⟨b, hb, hR⟩ := forall2_mem_left (mapM_ok_forall2 _ _ _ hdd) nuc hnuc
        obtain ⟨q, -, hpq⟩ := except_map_ok_inv _ _ _ hR
        exact ⟨b, hb, by rw [hpq]⟩
      have hd2 : (dget (nucFreqBase md dd) nuc).isSome := by
        unfold nucFreqBase
        refine dget_isSome_foldl_of_mem (fun p => p.1) (fun d p => p.2) dd _ nuc ?_
        left
        exact hcov
      by_cases hsum : s.length = (md.map (fun p => p.2.1)).sum
      · rw [if_pos hsum] at h
        injection h with hnf
        subst hnf
        exact hd2
      · rw [if_neg hsum] at h
        injection h with hnf
        subst hnf
        unfold nucFreqDegenerate
        have hd3 := dget_isSome_nucFreqMonoDegen s _ nuc hd2
        by_cases hl1 : len = 1
        · rw [if_pos hl1]
          exact hd3
        · rw [if_neg hl1]
          exact dget_isSome_nucFreqOligoDegen s len _ nuc hd3

theorem dkeys_filter_pred {q : List Char → Bool} {d : FreqDict} {k : List Char}
    (h : k ∈ dkeys (d.filter (fun p => q p.1))) : q k = true := by
  unfold dkeys at h
  obtain ⟨p, hp, rfl⟩ := List.mem_map.mp h
  exact (List.mem_filter.mp hp).2

theorem canonicalSet_eq_monoNucs : canonicalSet = monoNucs := rfl

theorem relMonoD_keys_singleton (nf : FreqDict) (L : Nat)
    (hQ : ∀ k ∈ dkeys nf, (∀ c ∈ k, c ∈ monoNucs) ∧
      (k.length = 1 ∨ k.length = L)) :
    ∀ k ∈ dkeys (relMonoD nf), ∃ c ∈ monoNucs, k = [c] := by
  have h0 : ∀ k ∈ dkeys (relMonoD0 nf), ∃ c ∈ monoNucs, k = [c] := by
    intro k hk
    have hlen : k.length = 1 := by
      have := @dkeys_filter_pred (fun k => decide (k.length = 1)) nf k hk
      simpa using this
    have hmem : k ∈ dkeys nf :=
      @dkeys_filter_mem (fun k => decide (k.length = 1)) nf k hk
    obtain ⟨hcanon, -⟩ := hQ k hmem
    cases k with
    | nil => cases hlen
    | cons c rest =>
      cases rest with
      | nil => exact ⟨c, hcanon c (List.mem_cons_self c []), rfl⟩
      | cons c2 rest2 => simp at hlen
  unfold relMonoD
  by_cases h4 : (relMonoD0 nf).length ≠ 4
  · rw [if_pos h4]
    refine foldl_preserve_mem
      (fun d => ∀ k ∈ dkeys d, ∃ c ∈ monoNucs, k = [c]) _ ?step _ h0
    intro d c hc hd
    have hcm : c ∈ monoNucs := by
      rw [← canonicalSet_eq_monoNucs]
      exact (List.mem_filter.mp hc).1
    exact dkeys_pred_dset hd ⟨c, hcm, rfl⟩
  · rw [if_neg h4]
    exact h0

theorem relMonoD_canonical_isSome (nf : FreqDict) (c : Char)
    (hp : (dget nf [c]).isSome) : (dget (relMonoD nf) [c]).isSome := by
  have h0 : dget (relMonoD0 nf) [c] = dget nf [c] :=
    dget_filter_key (fun k => decide (k.length = 1)) nf [c] rfl
  unfold relMonoD
  by_cases h4 : (relMonoD0 nf).length ≠ 4
  · rw [if_pos h4]
    refine foldl_preserve (fun d => (dget d [c]).isSome)
      (fun d c' hd => dget_isSome_dset hd) _ _ ?init
    case init =>
      show (dget (relMonoD0 nf) [c]).isSome
      rw [h0]
      exact hp
  · rw [if_neg h4, h0]
    exact hp

theorem relOligoD_keys_canonical (nf : FreqDict) (L : Nat)
    (hQ : ∀ k ∈ dkeys nf, (∀ c ∈ k, c ∈ monoNucs) ∧
      (k.length = 1 ∨ k.length = L)) :
    ∀ k ∈ dkeys (relOligoD nf), ∀ c ∈ k, c ∈ monoNucs := by
  have h0 : ∀ k ∈ dkeys (relOligoD0 nf), ∀ c ∈ k, c ∈ monoNucs := by
    intro k hk
    exact (hQ k (@dkeys_filter_mem (fun k => decide (k.length > 1)) nf k hk)).1
  unfold relOligoD
  by_cases hfill : (relOligoD0 nf).length ≠ relNucLen nf ^ 2
  · rw [if_pos hfill]
    refine foldl_preserve_mem
      (fun d => ∀ k ∈ dkeys d, ∀ c ∈ k, c ∈ monoNucs) _ ?step _ h0
    intro d k hkmem hd
    by_cases hks : (dget d k).isSome
    · rw [if_pos hks]
      exact hd
    · rw [if_neg hks]
      refine dkeys_pred_dset hd ?_
      intro c hc
      have hcks := pyProduct_mem _ _ k hkmem c hc
      obtain ⟨p, hpmem, hph⟩ := List.mem_map.mp hcks
      obtain ⟨c', hc', hpc'⟩ := relMonoD_keys_singleton nf L hQ p.1
        (List.mem_map.mpr ⟨p, hpmem, rfl⟩)
      rw [← hph, hpc']
      simpa using hc'
  · rw [if_neg hfill]
    exact h0

theorem strand1Safe_ok (oD mD : FreqDict) (x : List Char)
    (hx : (dget oD x).isSome) (hm : ∀ y ∈ x, (dget mD [y]).isSome) :
    ∃ v, strand1Safe oD mD x = .ok v := by
  obtain ⟨ox, hox⟩ := dgetE_ok hx
  obtain ⟨ts, hts⟩ := mapM_ok_of_forall_ok (fun y => dgetE mD [y]) x
    (fun y hy => dgetE_ok (hm y hy))
  refine ⟨zeroDivision ox (product ts), ?_⟩
  unfold strand1Safe
  rw [hox, except_bind_ok, hts, except_bind_ok]
  rfl

theorem strand1Try_error_zeroDiv (oD mD : FreqDict) (x : List Char)
    (hx : (dget oD x).isSome) (hm : ∀ y ∈ x, (dget mD [y]).isSome) :
    ∀ e, strand1Try oD mD x = .error e → e = .zeroDiv := by
  intro e h
  obtain ⟨ox, hox⟩ := dgetE_ok hx
  obtain ⟨ts, hts⟩ := mapM_ok_of_forall_ok (fun y => dgetE mD [y]) x
    (fun y hy => dgetE_ok (hm y hy))
  unfold strand1Try at h
  rw [hox, except_bind_ok, hts, except_bind_ok] at h
  by_cases hden : product ts = 0
  · rw [if_pos hden] at h
    injection h with h'
    exact h'.symm
  · rw [if_neg hden] at h
    cases h

theorem comprehendRetry_ok (keys : List (List Char))
    (f g : List Char → Except PyErr ℚ)
    (hf : ∀ x ∈ keys, ∀ e, f x = .error e → e = .zeroDiv)
    (hg : ∀ x ∈ keys, ∃ v, g x = .ok v) :
    ∃ d, comprehendRetry keys f g = .ok d := by
  unfold comprehendRetry
  cases h1 : keys.mapM f with
  | ok vs => exact ⟨_, rfl⟩
  | error e =>
    obtain ⟨x, hx, hfx⟩ := mapM_error_mem f keys e h1
    have he := hf x hx e hfx
    subst he
    obtain ⟨vs, hvs⟩ := mapM_ok_of_forall_ok g keys hg
    rw [hvs]
    exact ⟨_, rfl⟩

theorem relativeNucFrequencies_strand1_ok (nf : FreqDict) (L : Nat)
    (hL2 : 2 ≤ L)
    (hQ : ∀ k ∈ dkeys nf, (∀ c ∈ k, c ∈ monoNucs) ∧
      (k.length = 1 ∨ k.length = L))
    (hmono : ∀ c ∈ monoNucs, (dget nf [c]).isSome) :
    ∃ d, relativeNucFrequencies nf 1 = .ok d := by
  unfold relativeNucFrequencies
  by_cases hemp : (relOligoD0 nf).isEmpty
  · rw [if_pos hemp]
    exact ⟨nf, rfl⟩
  · rw [if_neg hemp]
    have holigo_len : ∀ k ∈ dkeys (relOligoD0 nf), k.length = L := by
      intro k hk
      have hgt : 1 < k.length := by
        have := @dkeys_filter_pred (fun k => decide (k.length > 1)) nf k hk
        simpa using this
      obtain ⟨-, h1L⟩ := hQ k (@dkeys_filter_mem (fun k => decide (k.length > 1)) nf k hk)
      rcases h1L with h1 | h1
      · omega
      · exact h1
    have hall : (relOligoD0 nf).all (fun p => p.1.length = relNucLen nf) = true := by
      have hLrel : relNucLen nf = L := by
        unfold relNucLen
        cases hol : relOligoD0 nf with
        | nil => rw [hol] at hemp; exact absurd rfl hemp
        | cons p ps =>
          simp only [List.head?_cons, Option.map_some, Option.getD_some]
          refine holigo_len p.1 ?_
          rw [hol]
          exact List.mem_map.mpr ⟨p, List.mem_cons_self p ps, rfl⟩
      rw [List.all_eq_true]
      intro p hp
      have := holigo_len p.1 (List.mem_map.mpr ⟨p, hp, rfl⟩)
      simp [this, hLrel]
    rw [if_neg (by rw [hall]; exact fun hh => hh rfl), if_neg (by simp)]
    have hcanon := relOligoD_keys_canonical nf L hQ
    refine comprehendRetry_ok _ _ _ ?hf ?hg
    case hf =>
      intro x hx e he
      exact strand1Try_error_zeroDiv _ _ x (dget_isSome_of_mem_dkeys hx)
        (fun y hy => relMonoD_canonical_isSome nf y
          (hmono y (hcanon x hx y hy))) e he
    case hg =>
      intro x hx
      exact strand1Safe_ok _ _ x (dget_isSome_of_mem_dkeys hx)
        (fun y hy => relMonoD_canonical_isSome nf y
          (hmono y (hcanon x hx y hy)))

/-! ## Support lemmas for the short-sequence error taxonomy -/

theorem seq_to_features_dna_eq (seq : List Char) :
    seq_to_features seq "dna" =
      (nucFrequencies seq 2 >>= fun nucFreq =>
        relativeNucFrequencies nucFreq 1 >>= fun rel =>
          thirdOrderBias seq 1 >>= fun tri =>
            pure (featsAssemble 1 nucFreq rel tri)) := rfl

theorem nucFrequencies_len1_zeroDiv (c : Char) :
    nucFrequencies [c] 2 = .error .zeroDiv := by
  obtain ⟨md, hmd⟩ := nucFrequencies_mapM_mono_ok [c]
  have hcomb : combinations 2 monoNucs [] =
      ['A', 'A'] ::
        [['A', 'C'], ['A', 'G'], ['A', 'T'], ['C', 'A'], ['C', 'C'],
         ['C', 'G'], ['C', 'T'], ['G', 'A'], ['G', 'C'], ['G', 'G'],
         ['G', 'T'], ['T', 'A'], ['T', 'C'], ['T', 'G'], ['T', 'T']] := by
    with_unfolding_all rfl
  have hfreq : frequence [c] ['A', 'A'] none = .error .zeroDiv := by
    with_unfolding_all rfl
  have hhead : (fun nuc => (frequence [c] nuc none).map (fun f => (nuc, f))) ['A', 'A'] =
      (Except.error PyErr.zeroDiv : Except PyErr (List Char × ℚ)) := by
    show (frequence [c] ['A', 'A'] none).map (fun f => (['A', 'A'], f)) =
      Except.error PyErr.zeroDiv
    rw [hfreq, except_map_error]
  have hdd : ((combinations 2 monoNucs []).mapM
      (fun nuc => (frequence [c] nuc none).map (fun f => (nuc, f)))) =
      .error .zeroDiv := by
    rw [hcomb]
    exact mapM_error_of_head _ ['A', 'A'] _ PyErr.zeroDiv hhead
  unfold nucFrequencies
  rw [hmd]
  simp only [except_bind_ok]
  rw [hdd]
  simp only [except_bind_error]

theorem seq_to_features_nf_error (seq : List Char) (e : PyErr)
    (h : nucFrequencies seq 2 = .error e) :
    seq_to_features seq "dna" = .error e := by
  rw [seq_to_features_dna_eq, h, except_bind_error]

theorem seq_to_features_len1 (c : Char) :
    seq_to_features [c] "dna" = .error .zeroDiv :=
  seq_to_features_nf_error [c] PyErr.zeroDiv (nucFrequencies_len1_zeroDiv c)

theorem seq_to_features_short_invalid (seq : List Char)
    (hlen : seq.length = 0 ∨ seq.length = 2)
    (hs : ∀ c ∈ seq, (alistGet NA_IUPAC c).isSome) :
    seq_to_features seq "dna" = .error .invalidInput := by
  obtain ⟨nf, hnf⟩ := nucFrequencies_ok seq 2 (by rcases hlen with h | h <;> omega)
  have hQ := nucFrequencies_keys_shape seq 2 nf hs hnf
  have hmono := nucFrequencies_mono_present seq 2 nf hnf
  obtain ⟨rd, hrd⟩ := relativeNucFrequencies_strand1_ok nf 2 (by omega) hQ hmono
  have htri := thirdOrderBias_invalid seq 1 (by rcases hlen with h | h <;> omega)
  rw [seq_to_features_dna_eq, hnf]
  simp only [except_bind_ok]
  rw [hrd]
  simp only [except_bind_ok]
  rw [htri]
  simp only [except_bind_error]

theorem seq_to_features_dna_ok (seq : List Char) (hlen : 2 < seq.length)
    (hs : ∀ c ∈ seq, (alistGet NA_IUPAC c).isSome) :
    ∃ feats, seq_to_features seq "dna" = .ok feats := by
  obtain ⟨nf, hnf⟩ := nucFrequencies_ok seq 2 (by omega)
  have hQ := nucFrequencies_keys_shape seq 2 nf hs hnf
  have hmono := nucFrequencies_mono_present seq 2 nf hnf
  obtain ⟨rd, hrd⟩ := relativeNucFrequencies_strand1_ok nf 2 (by omega) hQ hmono
  obtain ⟨td, htd⟩ := thirdOrderBias_ok seq hlen
  refine ⟨featsAssemble 1 nf rd td, ?_⟩
  rw [seq_to_features_dna_eq, hnf]
  simp only [except_bind_ok]
  rw [hrd]
  simp only [except_bind_ok]
  rw [htd]
  simp only [except_bind_ok]
  rfl

/-- C1.  The claim states `betterCount("AAA", "AA") = 2` (every starting
position of an overlapping occurrence).  The code never counts the first
occurrence found: it returns 1 on this input, one less than the number
of starting positions at which `"AA"` occurs in `"AAA"`, contradicting
its own docstring ("Return the number of overlapping occurrences"). -/
theorem betterCount_AAA_AA_miscount :
    betterCount segAAA wordAA = 1 ∧ specOverlapCount segAAA wordAA = 2 := by
  with_unfolding_all decide

/-- C2.  The claim states that on a non-empty all-canonical sequence the
four mononucleotide entries of `nucFrequencies` sum to 1.  On `"ACGT"`
the code computes every mononucleotide count with the off-by-one
`betterCount` (each base occurs once, so every count is 0) and the four
entries sum to 0, not 1. -/
theorem nucFrequencies_ACGT_mono_sum_zero :
    nucFrequencies segACGT 2 = .ok nfACGT ∧
    dgetD nfACGT ['A'] 0 + dgetD nfACGT ['C'] 0 + dgetD nfACGT ['G'] 0 +
      dgetD nfACGT ['T'] 0 = 0 ∧ (0 : ℚ) ≠ 1 := by
  with_unfolding_all decide

/-- C3.  The claim states `frequence(s, nuc) = overlapping_count / (len(s)
− len(nuc) + 1)` for `len(nuc) > 1`.  On `s = "AAA"`, `nuc = "AA"` the
overlapping count is 2 and the divisor is 2, so the claim demands 1.0,
but the code divides the deficient `betterCount` (= 1) by 2 and returns
0.5. -/
theorem frequence_AAA_AA_halved :
    frequence segAAA wordAA none = .ok (1 / 2) ∧
    (specOverlapCount segAAA wordAA : ℚ) /
      ((segAAA.length : ℚ) - (wordAA.length : ℚ) + 1) = 1 := by
  with_unfolding_all decide

/-- C5.  On a sequence of twelve `N`s, `nucFrequencies` at oligo length 2
redistributes each `N` as 1/(12·4) to each canonical base, so every
mononucleotide entry equals 1/4 — not zero and not concentrated on one
base. -/
theorem nucFrequencies_N12_mono_quarter :
    nucFrequencies segN12 2 = .ok nfN12 ∧
    dget nfN12 ['A'] = some (1 / 4) ∧ dget nfN12 ['C'] = some (1 / 4) ∧
    dget nfN12 ['G'] = some (1 / 4) ∧ dget nfN12 ['T'] = some (1 / 4) ∧
    (1 / 4 : ℚ) ≠ 0 := by
  with_unfolding_all decide

/-- C4 counterexample.  The claim states that `frequence` never
propagates a division-by-zero error.  On the non-empty sequence `"A"`
with the word `"AA"` the `k > 1` divisor `len(s) − len(nuc) + 1` is 0
and `frequence` raises `ZeroDivisionError`. -/
theorem frequence_A_AA_raises :
    frequence ['A'] ['A', 'A'] none = .error .zeroDiv := by
  with_unfolding_all decide

/-- C4 amended.  `frequence` raises `ZeroDivisionError` exactly when the
sequence is non-empty and `len(nuc) = len(sequence) + 1` (so the `k > 1`
divisor is zero); it raises nothing else, and the `zeroDivision` helper
does mask a zero denominator as 0. -/
theorem frequence_zeroDiv_characterization :
    (∀ (s nuc : List Char) (count : Option Nat),
      (frequence s nuc count = .error .zeroDiv ↔
        0 < s.length ∧ nuc.length = s.length + 1) ∧
      ∀ e, frequence s nuc count = .error e → e = .zeroDiv) ∧
    ∀ a : ℚ, zeroDivision a 0 = 0 := by
  constructor
  · intro s nuc count
    constructor
    · constructor
      · intro h
        obtain ⟨-, h2, h3⟩ := frequence_error_cases s nuc count _ h
        exact ⟨h2, h3⟩
      · intro h
        exact frequence_zeroDiv_of s nuc count h.1 h.2
    · intro e h
      exact (frequence_error_cases s nuc count e h).1
  · intro a
    simp [zeroDivision]

/-- C7.  In strand mode 2 `relativeNucFrequencies` assigns equal values
to a canonical k-mer and its reverse complement: the entry of `x` is
`2^(n−1) × (observed(x) + observed(reverse_complement(x)))` divided by
the product over the positions `y` of `mono(y) + mono(complement(y))`,
an expression invariant under reverse complementation (in the
`zeroDivision` fallback pass as well). -/
theorem relativeNucFrequencies_strand2_rc_symmetric (inDict d : FreqDict)
    (x : List Char) (v v' : ℚ) (hxlen : 2 ≤ x.length)
    (hx : ∀ c ∈ x, c ∈ monoNucs)
    (hok : relativeNucFrequencies inDict 2 = .ok d)
    (hv : dget d x = some v) (hv' : dget d (reverseComplement x) = some v') :
    v = v' := by
  unfold relativeNucFrequencies at hok
  by_cases hemp : (relOligoD0 inDict).isEmpty
  · rw [if_pos hemp] at hok
    injection hok with hd
    subst hd
    exfalso
    have hmem := dget_some_mem hv
    have hfil : (x, v) ∈ relOligoD0 inDict := by
      unfold relOligoD0
      refine List.mem_filter.mpr ⟨hmem, ?_⟩
      simp only [decide_eq_true_eq]
      omega
    rw [List.isEmpty_iff] at hemp
    rw [hemp] at hfil
    cases hfil
  · rw [if_neg hemp] at hok
    by_cases hall : ¬ (relOligoD0 inDict).all
        (fun p => p.1.length = relNucLen inDict)
    · rw [if_pos hall] at hok
      cases hok
    · rw [if_neg hall, if_pos (by decide)] at hok
      exact comprehendRetry_strand2_sym _ _ _ _ d x hx v v' hok hv hv'

/-- C7 witness: on the complete table of uniform frequencies, strand-2
relative frequencies are defined and equal (both 1) at the k-mer `AC`
and its reverse complement `GT`. -/
theorem relativeNucFrequencies_strand2_rc_symmetric_witness :
    2 ≤ (['A', 'C'] : List Char).length ∧
    (∀ c ∈ (['A', 'C'] : List Char), c ∈ monoNucs) ∧
    relativeNucFrequencies inDictC7 2 = .ok outDictC7 ∧
    dget outDictC7 ['A', 'C'] = some 1 ∧
    dget outDictC7 (reverseComplement ['A', 'C']) = some 1 ∧ (1 : ℚ) = 1 :=
  ⟨by decide, by decide, by with_unfolding_all decide,
   by with_unfolding_all decide, by with_unfolding_all decide,
   relativeNucFrequencies_strand2_rc_symmetric inDictC7 outDictC7 ['A', 'C'] 1 1
     (by decide) (by decide) (by with_unfolding_all decide)
     (by with_unfolding_all decide) (by with_unfolding_all decide)⟩

/-- C8.  For a sequence of length > 2 in strand mode 1, `thirdOrderBias`
maps each observed trinucleotide `xyz` to 0 when its frequency `fxyz` is
0, and otherwise to `fxyz × mono(x) × mono(y) × mono(z) / max(fxy × fyz
× Σ_n f(x,n,z), 1e-10)`, and the ε-guarded divisor is at least `1e-10`,
hence never zero. -/
theorem thirdOrderBias_strand1_formula (seq : List Char) (nf2 nf3 d : FreqDict)
    (hlen : 2 < seq.length)
    (h2 : nucFrequencies seq 2 = .ok nf2) (h3 : nucFrequencies seq 3 = .ok nf3)
    (hd : thirdOrderBias seq 1 = .ok d) :
    ∀ (x y z : Char) (f : ℚ),
      dget (nf3.filter (fun p => p.1.length = 3)) [x, y, z] = some f →
      dget d [x, y, z] = some (if f = 0 then 0 else
        specBias1 (nf2.filter (fun p => p.1.length = 1))
          (nf2.filter (fun p => p.1.length = 2))
          (nf3.filter (fun p => p.1.length = 3)) x y z) ∧
      1 / 10 ^ 10 ≤ specBias1Divisor (nf2.filter (fun p => p.1.length = 2))
        (nf3.filter (fun p => p.1.length = 3)) x y z := by
  intro x y z f hf
  unfold thirdOrderBias at hd
  rw [if_neg (by omega), if_neg (by simp), h2, except_bind_ok, h3,
    except_bind_ok] at hd
  cases hd
  refine ⟨?_, le_max_right _ _⟩
  have hnodup : (dkeys (nf3.filter (fun p => p.1.length = 3))).Nodup := by
    have hsub : List.Sublist (dkeys (nf3.filter (fun p => decide (p.1.length = 3))))
        (dkeys nf3) := List.Sublist.map _ (List.filter_sublist nf3)
    exact List.Nodup.sublist hsub (nucFrequencies_nodup seq 3 nf3 h3)
  have hbuild := dget_foldl_dset
    (fun p => triBiasValue (nf2.filter (fun p => p.1.length = 1))
      (nf2.filter (fun p => p.1.length = 2))
      (nf3.filter (fun p => p.1.length = 3)) 1 p.1 p.2)
    (nf3.filter (fun p => p.1.length = 3)) [] hnodup [x, y, z]
  rw [hf] at hbuild
  rw [hbuild]
  show some (triBiasValue (nf2.filter (fun p => p.1.length = 1))
      (nf2.filter (fun p => p.1.length = 2))
      (nf3.filter (fun p => p.1.length = 3)) 1 [x, y, z] f) = _
  congr 1
  have hfd : dgetD (nf3.filter (fun p => p.1.length = 3)) [x, y, z] 0 = f := by
    unfold dgetD
    rw [hf]
    rfl
  simp only [triBiasValue, specBias1, specBias1Divisor, List.take_succ_cons,
    List.take_zero, List.drop_succ_cons, List.drop_zero, List.getD_cons_zero,
    List.getD_cons_succ, hfd]
  by_cases hf0 : f = 0
  · simp [hf0]
  · simp [hf0]

/-- C8 witness: the hypotheses of `thirdOrderBias_strand1_formula` hold
at the concrete sequence `"AAA"`, with the conclusion instantiated at
the trinucleotide `AAA`. -/
theorem thirdOrderBias_strand1_formula_witness :
    ∃ (nf2 nf3 d : FreqDict) (f : ℚ),
      2 < segAAA.length ∧ nucFrequencies segAAA 2 = .ok nf2 ∧
      nucFrequencies segAAA 3 = .ok nf3 ∧
      thirdOrderBias segAAA 1 = .ok d ∧
      dget (nf3.filter (fun p => p.1.length = 3)) ['A', 'A', 'A'] = some f ∧
      (dget d ['A', 'A', 'A'] = some (if f = 0 then 0 else
          specBias1 (nf2.filter (fun p => p.1.length = 1))
            (nf2.filter (fun p => p.1.length = 2))
            (nf3.filter (fun p => p.1.length = 3)) 'A' 'A' 'A') ∧
        1 / 10 ^ 10 ≤ specBias1Divisor (nf2.filter (fun p => p.1.length = 2))
          (nf3.filter (fun p => p.1.length = 3)) 'A' 'A' 'A') := by
  obtain ⟨nf2, h2⟩ := nucFrequencies_ok segAAA 2 (by decide)
  obtain ⟨nf3, h3⟩ := nucFrequencies_ok segAAA 3 (by decide)
  obtain ⟨d, hd⟩ := thirdOrderBias_ok segAAA (by decide)
  have htri : (dget nf3 ['A', 'A', 'A']).isSome :=
    nucFrequencies_oligo_present segAAA 3 nf3 h3 ['A', 'A', 'A']
      (by with_unfolding_all decide)
  have hfil : dget (nf3.filter (fun p => p.1.length = 3)) ['A', 'A', 'A'] =
      dget nf3 ['A', 'A', 'A'] :=
    dget_filter_key (fun k => decide (k.length = 3)) nf3 ['A', 'A', 'A']
      (by decide)
  obtain ⟨f, hf0⟩ := Option.isSome_iff_exists.mp htri
  have hf : dget (nf3.filter (fun p => p.1.length = 3)) ['A', 'A', 'A'] =
      some f := by
    rw [hfil, hf0]
  exact ⟨nf2, nf3, d, f, by decide, h2, h3, hd, hf,
    thirdOrderBias_strand1_formula segAAA nf2 nf3 d (by decide) h2 h3 hd
      'A' 'A' 'A' f hf⟩

/-- C6.  The claim states that any oligo subset with fewer than `4^n`
entries is completed to the full grid.  The code compares the oligo
count against `nuc_len ** 2` instead: with exactly 4 dinucleotide
entries (`4 = 2²` but `4 < 4² = 16`) the fill is skipped and the result
keeps only 4 oligo entries, e.g. `"GG"` is absent. -/
theorem relativeNucFrequencies_skips_fill :
    relativeNucFrequencies inDictFour 1 = .ok outDictFour ∧
    outDictFour.length = 4 ∧ dget outDictFour ['G', 'G'] = none ∧
    ¬ (4 = 4 ^ 2) := by
  with_unfolding_all decide

/-- C9 counterexample.  The claim states that every sequence of length 2
or shorter makes `seq_to_features` fail with an `InvalidInputError`.  On
the single-character sequence `"A"` (with `nucleic_acid = "dna"`) the
call instead propagates a `ZeroDivisionError`: `nucFrequencies(seq, 2)`
evaluates `frequence("A", "AA")`, whose divisor `len(s) - len(nuc) + 1`
is zero, before `thirdOrderBias` ever runs its length assertion. -/
theorem seq_to_features_len1_not_invalidInput :
    seq_to_features ['A'] "dna" = .error .zeroDiv ∧
      (Except.error PyErr.zeroDiv : Except PyErr (List ℚ)) ≠
        Except.error PyErr.invalidInput :=
  ⟨seq_to_features_len1 'A', by decide⟩

/-- C9 amended.  `thirdOrderBias` rejects every sequence of length at
most 2 (any strand) with `InvalidInputError`, and on a sequence of
length 3 over the canonical alphabet it succeeds, exactly as claimed.
`seq_to_features` however only reports `InvalidInputError` for lengths 0
and 2 (given characters with IUPAC expansions); a length-1 sequence
instead raises `ZeroDivisionError` from `nucFrequencies(seq, 2)` before
the bias calculator runs. -/
theorem shortSequence_error_taxonomy :
    (∀ (seq : List Char) (strand : Nat), seq.length ≤ 2 →
      thirdOrderBias seq strand = .error .invalidInput) ∧
    (∀ seq : List Char, (seq.length = 0 ∨ seq.length = 2) →
      (∀ c ∈ seq, (alistGet NA_IUPAC c).isSome) →
      seq_to_features seq "dna" = .error .invalidInput) ∧
    (∀ c : Char, seq_to_features [c] "dna" = .error .zeroDiv) ∧
    (∀ seq : List Char, seq.length = 3 → ∃ d, thirdOrderBias seq 1 = .ok d) := by
  refine ⟨?_, ?_, ?_, ?_⟩
  · exact fun seq strand h => thirdOrderBias_invalid seq strand h
  · exact fun seq hlen hs => seq_to_features_short_invalid seq hlen hs
  · exact fun c => seq_to_features_len1 c
  · exact fun seq h3 => thirdOrderBias_ok seq (by omega)

/-- C9 witness: the four parts of the amended taxonomy instantiated at
`"AA"` (bias rejection), `"NK"` (feature-vector rejection at length 2),
`"A"` (the `ZeroDivisionError` path) and `"ACG"` (length-3 success). -/
theorem shortSequence_error_taxonomy_witness :
    thirdOrderBias ['A', 'A'] 1 = .error .invalidInput ∧
    seq_to_features ['N', 'K'] "dna" = .error .invalidInput ∧
    seq_to_features ['A'] "dna" = .error .zeroDiv ∧
    ∃ d, thirdOrderBias ['A', 'C', 'G'] 1 = .ok d :=
  ⟨shortSequence_error_taxonomy.1 ['A', 'A'] 1 (by decide),
   shortSequence_error_taxonomy.2.1 ['N', 'K'] (Or.inr rfl) (by decide),
   shortSequence_error_taxonomy.2.2.1 'A',
   shortSequence_error_taxonomy.2.2.2 ['A', 'C', 'G'] rfl⟩

/-- C10.  In `detect_virus_host_type`, when feature extraction succeeds
but the artifact step (loading the scaler/classifier or classifying)
raises, the call still returns a result with `features_extracted = True`
and the feature count set, and with `host_type` and `probabilities`
absent. -/
theorem detect_virus_host_type_partial_on_model_failure
    (sequence : List Char) (nucleic_acid classifier_type : String)
    (feats : List ℚ) (e : String)
    (lc : List ℚ → Except String (String × List (String × ℚ)))
    (hna : nucleic_acid.toLower ∈ ["dna", "rna"])
    (hct : classifier_type.toLower ∈ ["svc", "knn", "qda", "lr"])
    (hf : seq_to_features sequence nucleic_acid.toLower = .ok feats)
    (hlc : lc feats = .error e) :
    (detect_virus_host_type sequence nucleic_acid classifier_type true
        lc).features_extracted = true ∧
    (detect_virus_host_type sequence nucleic_acid classifier_type true
        lc).feature_count = feats.length ∧
    (detect_virus_host_type sequence nucleic_acid classifier_type true
        lc).host_type = none ∧
    (detect_virus_host_type sequence nucleic_acid classifier_type true
        lc).probabilities = none := by
  unfold detect_virus_host_type
  rw [if_neg (not_not_intro hna), if_neg (not_not_intro hct), hf]
  simp only [hlc]
  exact ⟨rfl, rfl, rfl, rfl⟩

/-- C10 witness: the hypotheses of
`detect_virus_host_type_partial_on_model_failure` hold at sequence
`"AAA"`, nucleic acid `"DNA"`, classifier `"svc"` and an artifact step
that always raises, together with the resulting partial result. -/
theorem detect_virus_host_type_partial_on_model_failure_witness :
    ∃ feats : List ℚ,
      ("DNA".toLower ∈ ["dna", "rna"]) ∧
      ("svc".toLower ∈ ["svc", "knn", "qda", "lr"]) ∧
      seq_to_features segAAA "DNA".toLower = .ok feats ∧
      lcFail feats = .error "incompatible pickle" ∧
      ((detect_virus_host_type segAAA "DNA" "svc" true
          lcFail).features_extracted = true ∧
        (detect_virus_host_type segAAA "DNA" "svc" true
          lcFail).feature_count = feats.length ∧
        (detect_virus_host_type segAAA "DNA" "svc" true
          lcFail).host_type = none ∧
        (detect_virus_host_type segAAA "DNA" "svc" true
          lcFail).probabilities = none) := by
  obtain ⟨feats, hf⟩ := seq_to_features_dna_ok segAAA (by decide) (by decide)
  have hna : ("DNA".toLower ∈ ["dna", "rna"]) := by with_unfolding_all decide
  have hct : ("svc".toLower ∈ ["svc", "knn", "qda", "lr"]) := by
    with_unfolding_all decide
  have htl : "DNA".toLower = "dna" := by with_unfolding_all decide
  have hf2 : seq_to_features segAAA "DNA".toLower = .ok feats := by
    rw [htl]
    exact hf
  have hlc : lcFail feats = .error "incompatible pickle" := rfl
  exact ⟨feats, hna, hct, hf2, hlc,
    detect_virus_host_type_partial_on_model_failure segAAA "DNA" "svc"
      feats "incompatible pickle" lcFail hna hct hf2 hlc⟩

end EvilEvo
